import Mathlib

/-!
Verification of the strategy-evaluation core of a BTC/USD backtesting engine
(crewai-trading-strategy).  The development shallowly embeds:

* the sandbox executor's static import screening and its module-scope
  execution namespaces (`safe_python_code_executor.py`),
* the pydantic order model and its structural validation
  (`strategy_backtester.py`, `OrdersAdapter`),
* the historical price table and its prefix/range operations
  (`historical_daily_prices_helper.py`),
* the portfolio ledger with BUY/SELL application and intraday
  stop-loss / take-profit enforcement, and the day-stepped backtest loop
  (`strategy_backtester.py`).

Python floats are modelled as rationals (`ℚ`); the engine's absolute
tolerance `1e-12` is the literal rational `eps`.  Mutation of the holdings
list is modelled by explicit state passing; a raised exception is an
`Except.error` carrying the message together with the ledger state at the
moment of the raise.
-/

namespace CrewaiTrading

/-! ### Decimal rendering of naturals (`Nat.repr`), used for holding ids `H1, H2, …`

The backtester mints holding ids as the Python f-string `f"H{n}"`, i.e.
`"H" ++ Nat.repr n`.  Freshness of minted ids requires injectivity of
`Nat.repr`, proved here from the core definition `Nat.toDigitsCore`. -/

/-- Structural (fuel-free) version of the base-10 digit list produced by
`Nat.toDigitsCore`. -/
def reprDigits (n : ℕ) : List Char :=
  if _h : n < 10 then [Nat.digitChar n]
  else reprDigits (n / 10) ++ [Nat.digitChar (n % 10)]
termination_by n
decreasing_by exact Nat.div_lt_self (by omega) (by omega)

/-- Numeric value of a decimal digit character. -/
def digitVal (c : Char) : ℕ := c.toNat - '0'.toNat

/-- The minted BTC holding id for counter value `n` (Python `f"H{n}"`). -/
def mintId (n : ℕ) : String := "H" ++ Nat.repr n

/-! ### Sandbox executor: static import screening (`check_and_compile`)

`check_and_compile` walks the parsed tree; for an `ast.Import` it checks the
top-level component of every alias against the allow-list, and for an
`ast.ImportFrom` it rejects when `node.module is None` and otherwise checks
the top-level component of `node.module`.  The node's relative-import
`level` field is never consulted. -/

/-- Python `name.split(".", 1)[0]`: the prefix of the dotted name up to the
first `'.'` (the whole name when it has no dot). -/
def topModule (s : String) : String :=
  (s.data.takeWhile (fun c => !(c == '.'))).asString

/-- The default `allowed_modules` set of `SafePythonCodeExecutor`. -/
def allowed_modules : List String :=
  ["math", "statistics", "datetime", "re", "numpy", "pandas"]

/-- Import-bearing AST nodes encountered by the screening walk.
`imp names` is `import a.b, c` (dotted alias names); `impFrom module level`
is a `from … import …`, where `module` is `none` for `from . import x` and
`level` counts the leading dots (`0` for an absolute import). -/
inductive ImportNode where
  | imp (names : List String)
  | impFrom (module : Option String) (level : ℕ)

/-- Screening of one import node, mirroring the two branches of the AST walk. -/
def screenImport : ImportNode → Except String Unit
  | .imp names =>
    match names.find? (fun nm => !allowed_modules.contains (topModule nm)) with
    | some nm => .error ("Unsafe import not allowed: import " ++ nm)
    | none => .ok ()
  | .impFrom none _level => .error "Unsafe relative import is not allowed."
  | .impFrom (some m) _level =>
    if allowed_modules.contains (topModule m) then .ok ()
    else .error ("Unsafe import not allowed: from " ++ m ++ " import ...")

/-- The import-screening pass of `check_and_compile` over the walked nodes:
the first offending node raises, otherwise screening succeeds. -/
def check_imports (nodes : List ImportNode) : Except String Unit :=
  nodes.forM screenImport

/-- The acceptance condition `check_imports` actually enforces. -/
def importAccepted : ImportNode → Prop
  | .imp names => ∀ nm ∈ names, topModule nm ∈ allowed_modules
  | .impFrom none _level => False
  | .impFrom (some m) _level => topModule m ∈ allowed_modules

/-! ### Sandbox executor: module-scope execution namespaces (`execute_compiled`)

`execute_compiled` builds `exec_globals` (curated builtins, `__name__`, the
injected `pd` and `np`) and a distinct, initially empty dict `exec_locals`,
then runs `exec(compiled, exec_globals, exec_locals)`.  With two distinct
mappings, CPython stores every top-level binding of the module body into
`exec_locals`, while a function or method defined at module scope captures
`exec_globals` as its `__globals__` and resolves free names there (then in
builtins), never in `exec_locals`. -/

structure ExecNamespaces where
  exec_globals : List String
  exec_locals : List String
deriving DecidableEq

/-- Names bound in the two dicts after `exec(compiled, exec_globals,
exec_locals)` runs a module body whose top-level definitions are
`topLevelDefs` (source lines 111–121). -/
def execute_compiled (topLevelDefs : List String) : ExecNamespaces :=
  { exec_globals := ["__builtins__", "__name__", "pd", "np"],
    exec_locals := topLevelDefs }

/-- The namespace `execute_compiled` returns: `{**exec_globals, **exec_locals}`. -/
def returned_namespace (ns : ExecNamespaces) : List String :=
  ns.exec_globals ++ ns.exec_locals

/-- Whether a free name used inside a top-level function or class method
resolves at call time: the lookup goes through the function's
`__globals__`, i.e. `exec_globals` (builtins elided — user definitions are
never there). -/
def resolvesSibling (ns : ExecNamespaces) (name : String) : Bool :=
  ns.exec_globals.contains name

/-! ### Order model and structural validation (`OrdersAdapter`)

Pydantic models: `BuyOrder` with literal `action="BUY"`, literal
`asset="BTC"`, `amount : float`, optional `stop_loss`/`take_profit`;
`SellOrder` with literal `action="SELL"`, `holding_id : str`,
`amount : float`; `Order` discriminated on `action`;
`OrdersAdapter = TypeAdapter(list[Order])`.  Default model config ignores
extra fields; no positivity constraint is declared on any field. -/

/-- Transport values crossing the pydantic boundary.  `num q` stands for any
Python value pydantic's lax mode coerces to `float`; the other shapes are
the distinct non-coercible cases. -/
inductive JVal where
  | null
  | num (q : ℚ)
  | str (s : String)
  | listv (xs : List JVal)
  | obj (fields : List (String × JVal))

/-- Python `raw_orders is None`. -/
def JVal.isNull : JVal → Bool
  | .null => true
  | _ => false

/-- Dictionary lookup (Python dict keys are unique; first match). -/
def getField (fields : List (String × JVal)) (key : String) : Option JVal :=
  fields.lookup key

structure BuyOrder where
  amount : ℚ
  stop_loss : Option ℚ := none
  take_profit : Option ℚ := none
deriving DecidableEq

structure SellOrder where
  holding_id : String
  amount : ℚ
deriving DecidableEq

inductive Order where
  | buy (o : BuyOrder)
  | sell (o : SellOrder)
deriving DecidableEq

/-- Validation of a required `float` field. -/
def validateFloat (fields : List (String × JVal)) (key : String) :
    Except String ℚ :=
  match getField fields key with
  | some (.num q) => .ok q
  | some _ => .error ("Input should be a valid number: " ++ key)
  | none => .error ("Field required: " ++ key)

/-- Validation of an `Optional[float] = None` field. -/
def validateOptFloat (fields : List (String × JVal)) (key : String) :
    Except String (Option ℚ) :=
  match getField fields key with
  | none => .ok none
  | some .null => .ok none
  | some (.num q) => .ok (some q)
  | some _ => .error ("Input should be a valid number: " ++ key)

/-- Validation against the `BuyOrder` model (after the discriminator chose it). -/
def validateBuy (fields : List (String × JVal)) : Except String Order :=
  match getField fields "asset" with
  | some (.str s) =>
    if s = "BTC" then do
      let amount ← validateFloat fields "amount"
      let sl ← validateOptFloat fields "stop_loss"
      let tp ← validateOptFloat fields "take_profit"
      return .buy { amount := amount, stop_loss := sl, take_profit := tp }
    else .error "Input should be 'BTC': asset"
  | some _ => .error "Input should be a valid string: asset"
  | none => .error "Field required: asset"

/-- Validation against the `SellOrder` model (after the discriminator chose it). -/
def validateSell (fields : List (String × JVal)) : Except String Order :=
  match getField fields "holding_id" with
  | some (.str hid) => do
    let amount ← validateFloat fields "amount"
    return .sell { holding_id := hid, amount := amount }
  | some _ => .error "Input should be a valid string: holding_id"
  | none => .error "Field required: holding_id"

/-- Validation of one element of the order list: discriminated union on
`action`. -/
def validateOrderElem : JVal → Except String Order
  | .obj fields =>
    match getField fields "action" with
    | some (.str a) =>
      if a = "BUY" then validateBuy fields
      else if a = "SELL" then validateSell fields
      else .error "Input tag does not match any of the expected tags: action"
    | some _ => .error "Invalid discriminator value: action"
    | none => .error "Unable to extract tag using discriminator: action"
  | _ => .error "Input should be a valid dictionary"

/-- `OrdersAdapter.validate_python`: all-or-nothing validation of the list. -/
def validate_python (xs : List JVal) : Except String (List Order) :=
  xs.mapM validateOrderElem

/-- The structural conformance `OrdersAdapter` actually enforces, stated
independently of the validator: correct discriminator and field types;
extra fields irrelevant; no sign or non-emptiness constraints. -/
def conformsStructurally : JVal → Prop
  | .obj fields =>
    (getField fields "action" = some (.str "BUY")
      ∧ getField fields "asset" = some (.str "BTC")
      ∧ (∃ q : ℚ, getField fields "amount" = some (.num q))
      ∧ (getField fields "stop_loss" = none ∨ getField fields "stop_loss" = some .null
          ∨ ∃ q : ℚ, getField fields "stop_loss" = some (.num q))
      ∧ (getField fields "take_profit" = none ∨ getField fields "take_profit" = some .null
          ∨ ∃ q : ℚ, getField fields "take_profit" = some (.num q)))
    ∨ (getField fields "action" = some (.str "SELL")
      ∧ (∃ s : String, getField fields "holding_id" = some (.str s))
      ∧ (∃ q : ℚ, getField fields "amount" = some (.num q)))
  | _ => False

/-! ### Portfolio ledger -/

inductive Asset where
  | usd
  | btc
deriving DecidableEq

structure HoldingState where
  holding_id : String
  asset : Asset
  amount : ℚ
  stop_loss : Option ℚ := none
  take_profit : Option ℚ := none
deriving DecidableEq

structure Ledger where
  holdings : List HoldingState
  next_id : ℕ
deriving DecidableEq

/-- The engine's absolute float tolerance `1e-12`. -/
def eps : ℚ := 1 / 10 ^ 12

def INITIAL_PORTFOLIO_USD : ℚ := 10000

def USD_HOLDING_ID : String := "USD"

/-- `_reset_portfolio`: a single USD holding; id counter back to 1. -/
def reset_portfolio : Ledger :=
  { holdings := [{ holding_id := USD_HOLDING_ID, asset := .usd,
                   amount := INITIAL_PORTFOLIO_USD }],
    next_id := 1 }

/-- `_get_usd_holding`: linear search for the first holding with asset USD
(raises when absent; callers handle that as an error case). -/
def get_usd_holding (holdings : List HoldingState) : Option HoldingState :=
  holdings.find? (fun h => h.asset == Asset.usd)

/-- `_find_holding`: linear search for the first holding with the given id. -/
def find_holding (hid : String) (holdings : List HoldingState) :
    Option HoldingState :=
  holdings.find? (fun h => h.holding_id == hid)

/-- In-place mutation of the first element satisfying `p`: the Python code
mutates the object returned by a linear search, leaving the rest of the
list untouched. -/
def updateFirst (p : HoldingState → Bool) (f : HoldingState → HoldingState) :
    List HoldingState → List HoldingState
  | [] => []
  | h :: t => if p h then f h :: t else h :: updateFirst p f t

/-- Amount held by the (first) USD holding. -/
def usdAmount (st : Ledger) : ℚ :=
  match get_usd_holding st.holdings with
  | some u => u.amount
  | none => 0

/-- `_apply_buy`.  An `error` carries the message and the ledger state at
the moment of the raise (for `_apply_buy` every raise precedes mutation). -/
def apply_buy (o : BuyOrder) (execution_price : ℚ) (st : Ledger) :
    Except (String × Ledger) Ledger :=
  if o.amount ≤ 0 then .error ("BUY amount must be > 0.", st)
  else
    match get_usd_holding st.holdings with
    | none => .error ("USD holding missing from portfolio state.", st)
    | some usd =>
      let cost := o.amount * execution_price
      if usd.amount + eps < cost then
        .error ("Insufficient USD for BUY.", st)
      else
        .ok { holdings :=
                updateFirst (fun h => h.asset == Asset.usd)
                  (fun h => { h with amount := h.amount - cost }) st.holdings
                ++ [{ holding_id := mintId st.next_id, asset := .btc,
                      amount := o.amount, stop_loss := o.stop_loss,
                      take_profit := o.take_profit }],
              next_id := st.next_id + 1 }

/-- `_apply_sell`.  The USD lookup happens after the target was decremented,
so that raise carries the partially mutated ledger, as in the source. -/
def apply_sell (o : SellOrder) (execution_price : ℚ) (st : Ledger) :
    Except (String × Ledger) Ledger :=
  if o.amount ≤ 0 then .error ("SELL amount must be > 0.", st)
  else if o.holding_id = USD_HOLDING_ID then
    .error ("Cannot SELL the USD holding via SELL order.", st)
  else
    match find_holding o.holding_id st.holdings with
    | none => .error ("SELL refers to non-existing holding_id.", st)
    | some target =>
      if target.asset ≠ Asset.btc then .error ("SELL holding must be BTC.", st)
      else if target.amount + eps < o.amount then
        .error ("Cannot SELL more than holding contains.", st)
      else
        let proceeds := o.amount * execution_price
        let holdings1 :=
          updateFirst (fun h => h.holding_id == o.holding_id)
            (fun h => { h with amount := h.amount - o.amount }) st.holdings
        match get_usd_holding holdings1 with
        | none => .error ("USD holding missing from portfolio state.",
                          { st with holdings := holdings1 })
        | some _ =>
          let holdings2 :=
            updateFirst (fun h => h.asset == Asset.usd)
              (fun h => { h with amount := h.amount + proceeds }) holdings1
          let holdings3 :=
            if target.amount - o.amount ≤ eps then
              holdings2.filter (fun h => !(h.holding_id == o.holding_id))
            else holdings2
          .ok { st with holdings := holdings3 }

/-- Dispatch of `_apply_orders` on one order. -/
def applyOne (o : Order) (execution_price : ℚ) (st : Ledger) :
    Except (String × Ledger) Ledger :=
  match o with
  | .buy b => apply_buy b execution_price st
  | .sell s => apply_sell s execution_price st

/-- `_apply_orders`: orders applied in list order; the first raise aborts. -/
def apply_orders : List Order → ℚ → Ledger → Except (String × Ledger) Ledger
  | [], _, st => .ok st
  | o :: rest, p, st =>
    match applyOne o p st with
    | .error e => .error e
    | .ok st' => apply_orders rest p st'

/-- Ghost record of one executed `_apply_sell` call during SL/TP enforcement. -/
structure SellEvent where
  holding_id : String
  amount : ℚ
  price : ℚ
deriving DecidableEq

/-- Take-profit half of the loop body of `_auto_close_on_thresholds`. -/
def tpStep (high : ℚ) (h : HoldingState) (st : Ledger) :
    Except (String × Ledger) (Ledger × List SellEvent) :=
  if (find_holding h.holding_id st.holdings).isNone then .ok (st, [])
  else
    match h.take_profit with
    | some t =>
      if t ≤ high then
        (apply_sell { holding_id := h.holding_id, amount := h.amount } t st).map
          (fun st' => (st', [⟨h.holding_id, h.amount, t⟩]))
      else .ok (st, [])
    | none => .ok (st, [])

/-- One iteration of the enforcement loop, for snapshot entry `h`:
stop-loss first, take-profit only if the stop-loss branch did not fire. -/
def closeStep (low high : ℚ) (h : HoldingState) (st : Ledger) :
    Except (String × Ledger) (Ledger × List SellEvent) :=
  if (find_holding h.holding_id st.holdings).isNone then .ok (st, [])
  else
    match h.stop_loss with
    | some s =>
      if low ≤ s then
        (apply_sell { holding_id := h.holding_id, amount := h.amount } s st).map
          (fun st' => (st', [⟨h.holding_id, h.amount, s⟩]))
      else tpStep high h st
    | none => tpStep high h st

/-- Sequential processing of the snapshot taken at enforcement start. -/
def closeAll (low high : ℚ) :
    List HoldingState → Ledger → Except (String × Ledger) (Ledger × List SellEvent)
  | [], st => .ok (st, [])
  | h :: rest, st =>
    match closeStep low high h st with
    | .error e => .error e
    | .ok (st', evs) =>
      match closeAll low high rest st' with
      | .error e => .error e
      | .ok (st'', evs') => .ok (st'', evs ++ evs')

/-- `_auto_close_on_thresholds` for day row `(low, high)`, with the ghost
trace of executed sells `(holding_id, amount, price)`. -/
def auto_close (low high : ℚ) (st : Ledger) :
    Except (String × Ledger) (Ledger × List SellEvent) :=
  closeAll low high
    (st.holdings.filter (fun h => h.asset == Asset.btc && decide (eps < h.amount)))
    st

/-- Structural part of the ledger bookkeeping invariant: a USD holding
exists, every USD holding carries the id `"USD"`, ids are pairwise
distinct, and BTC ids are minted values `H k` with `1 ≤ k` below the
counter.  (Together with id distinctness this makes the USD holding
unique.) -/
structure WInv (st : Ledger) : Prop where
  usd_exists : ∃ u ∈ st.holdings, u.asset = Asset.usd
  usd_id : ∀ h ∈ st.holdings, h.asset = Asset.usd → h.holding_id = USD_HOLDING_ID
  ids_nodup : (st.holdings.map (fun h => h.holding_id)).Nodup
  btc_ids : ∀ h ∈ st.holdings, h.asset = Asset.btc →
    ∃ k, 1 ≤ k ∧ k < st.next_id ∧ h.holding_id = mintId k

/-- The full ledger bookkeeping invariant: the structural part plus
amounts not negative beyond tolerance and a positive id counter. -/
structure Inv (st : Ledger) extends WInv st : Prop where
  amounts : ∀ h ∈ st.holdings, -eps ≤ h.amount
  next_pos : 1 ≤ st.next_id

/-! ### Snapshots -/

structure HoldingSnapshot where
  holding_id : String
  asset : Asset
  amount : ℚ
  unit_value_usd : ℚ
  total_value_usd : ℚ
  stop_loss : Option ℚ := none
  take_profit : Option ℚ := none
deriving DecidableEq

/-- `_snapshot_holdings_with_price`: value USD at 1, BTC at the given price. -/
def snapshot_holdings_with_price (btc_price : ℚ) (st : Ledger) :
    List HoldingSnapshot :=
  st.holdings.map (fun h =>
    let unit := if h.asset = Asset.usd then 1 else btc_price
    { holding_id := h.holding_id, asset := h.asset, amount := h.amount,
      unit_value_usd := unit, total_value_usd := h.amount * unit,
      stop_loss := h.stop_loss, take_profit := h.take_profit })

/-! ### Price table (`HistoricalDailyPricesHelper`)

Bars carry their (normalized, daily) dates as integers; the table is the
index-sorted list loaded from the CSV.  A parsed timestamp is a calendar
day plus a nonnegative intraday fraction; `normalize` zeroes the intraday
part, which is how `_to_timestamp` treats every date-like input. -/

structure Bar where
  date : ℤ
  open_ : ℚ
  high : ℚ
  low : ℚ
  close : ℚ
  volume : ℤ
deriving DecidableEq

structure Ts where
  day : ℤ
  tod : ℚ := 0
deriving DecidableEq

def normalizeTs (t : Ts) : Ts := { day := t.day, tod := 0 }

/-- `get_df_until_date`: `index.searchsorted(cutoff, side="right")` on the
sorted date index followed by the prefix `iloc[:end]`; the cutoff is the
parsed input normalized to its calendar day.  (`_with_date_column` only
re-shapes columns and is the identity on rows.) -/
def get_df_until_date (df : List Bar) (d : Ts) : List Bar :=
  df.takeWhile (fun b => decide (b.date ≤ (normalizeTs d).day))

/-- `_validate_and_slice_range`: order check, bounds check against the
index min/max, the label slice `df.loc[start:end]`, and the emptiness
check. -/
def validate_and_slice_range (df : List Bar) (s e : Ts) :
    Except String (List Bar) :=
  let start_ts := (normalizeTs s).day
  let end_ts := (normalizeTs e).day
  if end_ts < start_ts then .error "Invalid range: start is after end."
  else
    match df.head? with
    | none => .error "No rows found in range."
    | some first =>
      match df.getLast? with
      | none => .error "No rows found in range."
      | some last =>
        if start_ts < first.date ∨ last.date < end_ts then
          .error "Date range is outside the dataset bounds."
        else
          let subset := df.filter
            (fun b => decide (start_ts ≤ b.date) && decide (b.date ≤ end_ts))
          if subset.isEmpty then .error "No rows found in range."
          else .ok subset

/-- `get_trading_dates`: the (already normalized) dates of the range slice. -/
def get_trading_dates (df : List Bar) (s e : Ts) : Except String (List ℤ) :=
  (validate_and_slice_range df s e).map (List.map (·.date))

/-! ### Backtest engine (`test_strategy`) -/

/-- `_last_known_close`: close of the last row of the view (`iloc[-1]`,
a raise on an empty view, hence `Option`). -/
def last_known_close (day_df : List Bar) : Option ℚ :=
  day_df.getLast?.map (·.close)

/-- The strategy's view for execution day `day`: prices up to `day − 1 day`
inclusive (source: `as_of = day - pd.Timedelta(days=1)`). -/
def strategy_df (prices : List Bar) (day : ℤ) : List Bar :=
  get_df_until_date prices { day := day - 1 }

/-- Ghost record of one strategy invocation: the execution day and the two
arguments handed to `run(df, holdings)`. -/
structure CallRec where
  day : ℤ
  df : List Bar
  payload : List HoldingSnapshot
deriving DecidableEq

/-- The compiled strategy callable: receives the view and the holdings
payload, returns a Python value or raises. -/
def Runner : Type := List Bar → List HoldingSnapshot → Except String JVal

/-- Post-strategy portion of one loop iteration: normalize a `None` return,
require a list, validate through `OrdersAdapter`, apply at the open, then
enforce SL/TP intraday. -/
def processOrders (raw : JVal) (open_price low high : ℚ) (st : Ledger) :
    Except (String × Ledger) Ledger :=
  let raw' := if raw.isNull then .listv [] else raw
  match raw' with
  | .listv items =>
    match validate_python items with
    | .error e => .error ("Order error: invalid order payload(s): " ++ e, st)
    | .ok orders =>
      match apply_orders orders open_price st with
      | .error (e, st1) => .error ("Order error: " ++ e, st1)
      | .ok st1 =>
        match auto_close low high st1 with
        | .error (e, st2) => .error ("Order error: " ++ e, st2)
        | .ok (st2, _evs) => .ok st2
  | _ => .error
      ("Order error: run(df, holdings) must return a list of orders (or an empty list).", st)

/-- One iteration of the day loop of `test_strategy`, with the ghost trace
of the strategy invocation (empty when the strategy was not reached). -/
def runDay (prices : List Bar) (runner : Runner) (day : ℤ) (st : Ledger) :
    List CallRec × Except (String × Ledger) Ledger :=
  let day_df := strategy_df prices day
  if day_df.isEmpty then
    ([], .error ("Date range validation error: not enough history (warm-up).", st))
  else
    match last_known_close day_df with
    | none => ([], .error ("Unexpected backtest error: empty view.", st))
    | some last_known_btc =>
      match prices.find? (fun b => b.date == day) with
      | none => ([], .error ("Unexpected backtest error: day not in index.", st))
      | some day_row =>
        let payload := snapshot_holdings_with_price last_known_btc st
        match runner day_df payload with
        | .error _tb =>
          ([⟨day, day_df, payload⟩], .error ("Strategy execution error.", st))
        | .ok raw =>
          ([⟨day, day_df, payload⟩],
           processOrders raw day_row.open_ day_row.low day_row.high st)

/-- Sequential day loop. -/
def runDays (prices : List Bar) (runner : Runner) :
    List ℤ → Ledger → List CallRec × Except (String × Ledger) Ledger
  | [], st => ([], .ok st)
  | d :: rest, st =>
    match runDay prices runner d st with
    | (tr, .error e) => (tr, .error e)
    | (tr, .ok st') =>
      match runDays prices runner rest st' with
      | (tr', r') => (tr ++ tr', r')

structure BacktestResult where
  holdings : List HoldingSnapshot
  total_portfolio_usd : ℚ
  revenue_percent : ℚ
deriving DecidableEq

/-- `test_strategy`: trading dates, warm-up check, ledger reset, day loop,
final valuation at the last day's close.  The sandbox compile step is
modelled separately (its callable is the `runner` argument); the ghost
trace collects every strategy invocation of the run. -/
def test_strategy (prices : List Bar) (s e : Ts) (runner : Runner) :
    List CallRec × Except String BacktestResult :=
  match get_trading_dates prices s e with
  | .error msg => ([], .error ("Date range validation error: " ++ msg))
  | .ok dates =>
    match dates.head? with
    | none => ([], .error "Date range validation error: empty range.")
    | some d0 =>
      if (get_df_until_date prices { day := d0 - 1 }).isEmpty then
        ([], .error "Date range validation error: start_date requires at least 1 prior candle (warm-up). Choose a later start_date.")
      else
        match runDays prices runner dates reset_portfolio with
        | (tr, .error (msg, _)) => (tr, .error msg)
        | (tr, .ok stF) =>
          match dates.getLast? with
          | none => (tr, .error "Unexpected backtest error.")
          | some last_day =>
            match prices.find? (fun b => b.date == last_day) with
            | none => (tr, .error "Unexpected backtest error: day not in index.")
            | some last_row =>
              let snaps := snapshot_holdings_with_price last_row.close stF
              let total := (snaps.map (·.total_value_usd)).sum
              (tr, .ok { holdings := snaps, total_portfolio_usd := total,
                         revenue_percent := (total / INITIAL_PORTFOLIO_USD - 1) * 100 })

/-- A SELL mapping with an empty `holding_id`, a negative `amount`, and an
extra field, used to probe structural validation. -/
def badSellPayload : JVal :=
  .obj [("action", .str "SELL"), ("holding_id", .str ""),
        ("amount", .num (-1)), ("extra", .num 5)]


/-- Shape of the ledger after `_apply_sell` of a holding's full amount at
the given price (the target always collapses to amount 0 ≤ ε and is
removed): the USD holding is credited, the target is gone, everything else
is untouched.  Tied to `apply_sell` by `apply_sell_full`. -/
def sellFullResult (hid : String) (amt price : ℚ) (st : Ledger) : Ledger :=
  { holdings := (st.holdings.map (fun x =>
      if x.holding_id == hid then { x with amount := x.amount - amt }
      else if x.asset == Asset.usd
      then { x with amount := x.amount + amt * price } else x)).filter
      (fun x => !(x.holding_id == hid)),
    next_id := st.next_id }

/-! ### Sample data for concrete instances -/

/-- A small three-bar price table (dates 1, 2 and 4). -/
def sampleBars : List Bar :=
  [{ date := 1, open_ := 100, high := 102, low := 98, close := 100, volume := 10 },
   { date := 2, open_ := 100, high := 105, low := 95, close := 101, volume := 12 },
   { date := 4, open_ := 101, high := 106, low := 100, close := 104, volume := 9 }]

/-- A strategy that never trades (returns `None`). -/
def sampleRunner : Runner := fun _ _ => Except.ok JVal.null

/-- The single strategy invocation of `test_strategy sampleBars` on day 2:
the view is the date-1 bar and the payload is the freshly reset portfolio
valued at its close. -/
def sampleRec : CallRec :=
  { day := 2,
    df := [{ date := 1, open_ := 100, high := 102, low := 98, close := 100, volume := 10 }],
    payload := [{ holding_id := "USD", asset := .usd, amount := 10000,
                  unit_value_usd := 1, total_value_usd := 10000 }] }

/-- A BTC holding carrying both a stop-loss and a take-profit. -/
def slTpHolding : HoldingState :=
  { holding_id := "H1", asset := .btc, amount := 1,
    stop_loss := some 95, take_profit := some 105 }

/-- A ledger with one BTC holding carrying both thresholds, used to
instantiate the SL-before-TP property on a concrete day row. -/
def sampleSlState : Ledger :=
  { holdings :=
      [{ holding_id := "USD", asset := .usd, amount := 100 }, slTpHolding],
    next_id := 2 }

/-- A BTC holding with a negative take-profit threshold (structural
validation does not constrain the sign of SL/TP prices). -/
def negTpHolding : HoldingState :=
  { holding_id := "H1", asset := .btc, amount := 50,
    take_profit := some (-100) }

/-- The ledger reached from the reset portfolio by buying 50 BTC at an
open of 200 with `take_profit = -100`: all USD was spent on the
position. -/
def sampleNegTpState : Ledger :=
  { holdings :=
      [{ holding_id := "USD", asset := .usd, amount := 0 }, negTpHolding],
    next_id := 2 }

/-- A strategy whose invocation raises immediately. -/
def failRunner : Runner := fun _ _ => Except.error "raise"

/-- The single strategy invocation of `test_strategy sampleBars` on day 2
with the raising strategy (the run aborts right after the call). -/
def sampleRec4 : CallRec :=
  { day := 2,
    df := [{ date := 1, open_ := 100, high := 102, low := 98, close := 100, volume := 10 }],
    payload := snapshot_holdings_with_price 100 reset_portfolio }

/-! ### Helper lemmas: decimal rendering -/

theorem toDigitsCore_eq_reprDigits (f : ℕ) :
    ∀ (n : ℕ) (acc : List Char), n < f →
      Nat.toDigitsCore 10 f n acc = reprDigits n ++ acc := by
  induction f with
  | zero => intro n acc h; omega
  | succ f ih =>
    intro n acc hf
    show (if n / 10 = 0 then Nat.digitChar (n % 10) :: acc
          else Nat.toDigitsCore 10 f (n / 10) (Nat.digitChar (n % 10) :: acc))
        = reprDigits n ++ acc
    by_cases h10 : n / 10 = 0
    · have hn : n < 10 := by omega
      rw [if_pos h10, reprDigits, dif_pos hn, Nat.mod_eq_of_lt hn]
      rfl
    · rw [if_neg h10, ih (n / 10) _ (by omega)]
      conv_rhs => rw [reprDigits, dif_neg (show ¬n < 10 by omega)]
      simp

theorem digitVal_digitChar {d : ℕ} (h : d < 10) :
    digitVal (Nat.digitChar d) = d := by
  interval_cases d <;> rfl

theorem foldl_reprDigits (n : ℕ) :
    ∀ a : ℕ, List.foldl (fun a c => 10 * a + digitVal c) a (reprDigits n)
      = a * 10 ^ (reprDigits n).length + n := by
  induction n using Nat.strong_induction_on with
  | _ n ih =>
    intro a
    by_cases h : n < 10
    · rw [reprDigits, dif_pos h]
      simp [digitVal_digitChar h]
      ring
    · rw [reprDigits, dif_neg h, List.foldl_append,
          ih (n / 10) (Nat.div_lt_self (by omega) (by omega))]
      simp [digitVal_digitChar (Nat.mod_lt n (by omega))]
      have h10 : 10 * (n / 10) + n % 10 = n := Nat.div_add_mod n 10
      ring_nf
      omega

theorem reprDigits_injective : Function.Injective reprDigits := by
  intro m n h
  have hm := foldl_reprDigits m 0
  have hn := foldl_reprDigits n 0
  rw [h] at hm
  omega

theorem nat_repr_injective : Function.Injective Nat.repr := by
  intro m n h
  unfold Nat.repr Nat.toDigits at h
  rw [toDigitsCore_eq_reprDigits _ _ _ (Nat.lt_succ_self m),
      toDigitsCore_eq_reprDigits _ _ _ (Nat.lt_succ_self n)] at h
  simp only [List.append_nil, List.asString] at h
  exact reprDigits_injective (by injection h)

theorem mintId_injective : Function.Injective mintId := by
  intro m n h
  have hd : ("H" ++ Nat.repr m).data = ("H" ++ Nat.repr n).data := by
    rw [show ("H" ++ Nat.repr m) = ("H" ++ Nat.repr n) from h]
  rw [String.data_append, String.data_append] at hd
  exact nat_repr_injective (String.ext (List.append_cancel_left hd))

theorem mintId_ne_usd (n : ℕ) : mintId n ≠ "USD" := by
  intro h
  have hd : ("H" ++ Nat.repr n).data = "USD".data := by
    rw [show ("H" ++ Nat.repr n) = "USD" from h]
  rw [String.data_append] at hd
  have : 'H' = 'U' := by
    have h1 : "H".data = ['H'] := rfl
    have h2 : "USD".data = ['U', 'S', 'D'] := rfl
    rw [h1, h2] at hd
    injection hd with h3 _
  exact absurd this (by decide)

/-! ### Helper lemmas: `Except` plumbing -/

theorem bind_isOk {α β : Type} (e : Except String α) (g : α → Except String β) :
    (e >>= g).isOk = true ↔ ∃ a, e = .ok a ∧ (g a).isOk = true := by
  cases e <;> simp [Bind.bind, Except.bind, Except.isOk, Except.toBool]

theorem mapM_isOk_iff {α β : Type} (f : α → Except String β) :
    ∀ xs : List α, (xs.mapM f).isOk = true ↔ ∀ x ∈ xs, (f x).isOk = true := by
  intro xs
  induction xs with
  | nil =>
    constructor
    · intro _ x hx
      exact absurd hx (List.not_mem_nil x)
    · intro _
      rfl
  | cons a as ih =>
    rw [List.mapM_cons]
    simp only [bind_isOk]
    constructor
    · rintro ⟨b, hb, bs, hbs, -⟩
      intro x hx
      rcases List.mem_cons.mp hx with rfl | hx'
      · rw [hb]; rfl
      · exact (ih.mp (by rw [hbs]; rfl)) x hx'
    · intro hall
      obtain ⟨b, hb⟩ : ∃ b, f a = .ok b := by
        cases h : f a with
        | ok b => exact ⟨b, rfl⟩
        | error e =>
          have hh := hall a (List.mem_cons_self a as)
          rw [h] at hh
          exact absurd hh (by simp [Except.isOk, Except.toBool])
      obtain ⟨bs, hbs⟩ : ∃ bs, as.mapM f = .ok bs := by
        have h2 := ih.mpr (fun x hx => hall x (List.mem_cons_of_mem a hx))
        cases h : as.mapM f with
        | ok bs => exact ⟨bs, rfl⟩
        | error e =>
          rw [h] at h2
          exact absurd h2 (by simp [Except.isOk, Except.toBool])
      exact ⟨b, hb, bs, hbs, rfl⟩

theorem forM_ok_iff {α : Type} (f : α → Except String Unit) :
    ∀ xs : List α, xs.forM f = Except.ok () ↔ ∀ x ∈ xs, f x = Except.ok () := by
  intro xs
  induction xs with
  | nil =>
    constructor
    · intro _ x hx
      exact absurd hx (List.not_mem_nil x)
    · intro _
      rfl
  | cons a as ih =>
    rw [List.forM_cons']
    cases h : f a with
    | error e =>
      constructor
      · intro hbind
        exact absurd hbind (by simp [Bind.bind, Except.bind])
      · intro hall
        have hh := hall a (List.mem_cons_self a as)
        rw [h] at hh
        exact absurd hh (by simp)
    | ok u =>
      cases u
      constructor
      · intro hbind
        have hrest : as.forM f = Except.ok () := by
          simpa [Bind.bind, Except.bind] using hbind
        intro x hx
        rcases List.mem_cons.mp hx with rfl | hx'
        · exact h
        · exact (ih.mp hrest) x hx'
      · intro hall
        have hrest : as.forM f = Except.ok () :=
          ih.mpr (fun x hx => hall x (List.mem_cons_of_mem a hx))
        simpa [Bind.bind, Except.bind] using hrest
/-! ### Order validation characterization -/

theorem validateFloat_ok_iff (fields : List (String × JVal)) (key : String) :
    (∃ a, validateFloat fields key = .ok a) ↔
      ∃ q : ℚ, getField fields key = some (.num q) := by
  unfold validateFloat
  split
  · rename_i q heq
    simp [heq]
  · simp_all
  · simp_all

theorem validateOptFloat_ok_iff (fields : List (String × JVal)) (key : String) :
    (∃ a, validateOptFloat fields key = .ok a) ↔
      (getField fields key = none ∨ getField fields key = some .null
        ∨ ∃ q : ℚ, getField fields key = some (.num q)) := by
  unfold validateOptFloat
  split
  · rename_i heq
    simp [heq]
  · rename_i heq
    simp [heq]
  · rename_i q heq
    simp [heq]
  · simp_all

theorem validateBuy_ok_iff (fields : List (String × JVal)) :
    (validateBuy fields).isOk = true ↔
      (getField fields "asset" = some (.str "BTC")
        ∧ (∃ q : ℚ, getField fields "amount" = some (.num q))
        ∧ (getField fields "stop_loss" = none
            ∨ getField fields "stop_loss" = some .null
            ∨ ∃ q : ℚ, getField fields "stop_loss" = some (.num q))
        ∧ (getField fields "take_profit" = none
            ∨ getField fields "take_profit" = some .null
            ∨ ∃ q : ℚ, getField fields "take_profit" = some (.num q))) := by
  unfold validateBuy
  split
  · rename_i s heq
    rw [heq]
    by_cases hs : s = "BTC"
    · subst hs
      rw [if_pos rfl]
      simp only [bind_isOk, Option.some.injEq, JVal.str.injEq, true_and]
      constructor
      · rintro ⟨a, ha, sl, hsl, tp, htp, -⟩
        exact ⟨(validateFloat_ok_iff fields "amount").mp ⟨a, ha⟩,
          (validateOptFloat_ok_iff fields "stop_loss").mp ⟨sl, hsl⟩,
          (validateOptFloat_ok_iff fields "take_profit").mp ⟨tp, htp⟩⟩
      · rintro ⟨hq, hslr, htpr⟩
        obtain ⟨a, ha⟩ := (validateFloat_ok_iff fields "amount").mpr hq
        obtain ⟨sl, hsl⟩ := (validateOptFloat_ok_iff fields "stop_loss").mpr hslr
        obtain ⟨tp, htp⟩ := (validateOptFloat_ok_iff fields "take_profit").mpr htpr
        exact ⟨a, ha, sl, hsl, tp, htp, rfl⟩
    · rw [if_neg hs]
      simp [Except.isOk, Except.toBool, hs]
  · simp_all [Except.isOk, Except.toBool]
  · simp_all [Except.isOk, Except.toBool]

theorem validateSell_ok_iff (fields : List (String × JVal)) :
    (validateSell fields).isOk = true ↔
      ((∃ s : String, getField fields "holding_id" = some (.str s))
        ∧ (∃ q : ℚ, getField fields "amount" = some (.num q))) := by
  unfold validateSell
  split
  · rename_i s heq
    rw [heq]
    simp only [bind_isOk]
    constructor
    · rintro ⟨a, ha, -⟩
      exact ⟨⟨s, rfl⟩, (validateFloat_ok_iff fields "amount").mp ⟨a, ha⟩⟩
    · rintro ⟨-, hq⟩
      obtain ⟨a, ha⟩ := (validateFloat_ok_iff fields "amount").mpr hq
      exact ⟨a, ha, rfl⟩
  · simp_all [Except.isOk, Except.toBool]
  · simp_all [Except.isOk, Except.toBool]

theorem validateOrderElem_ok_iff (v : JVal) :
    (validateOrderElem v).isOk = true ↔ conformsStructurally v := by
  cases v with
  | null => simp [validateOrderElem, conformsStructurally, Except.isOk, Except.toBool]
  | num q => simp [validateOrderElem, conformsStructurally, Except.isOk, Except.toBool]
  | str s => simp [validateOrderElem, conformsStructurally, Except.isOk, Except.toBool]
  | listv xs => simp [validateOrderElem, conformsStructurally, Except.isOk, Except.toBool]
  | obj fields =>
    show (validateOrderElem (.obj fields)).isOk = true ↔ conformsStructurally (.obj fields)
    simp only [validateOrderElem, conformsStructurally]
    split
    · rename_i a heq
      rw [heq]
      by_cases hb : a = "BUY"
      · subst hb
        rw [if_pos rfl, validateBuy_ok_iff]
        simp
      · by_cases hse : a = "SELL"
        · subst hse
          rw [if_neg (by decide), if_pos rfl, validateSell_ok_iff]
          simp
        · rw [if_neg hb, if_neg hse]
          simp [Except.isOk, Except.toBool, hb, hse]
    · simp_all [Except.isOk, Except.toBool]
    · simp_all [Except.isOk, Except.toBool]

/-! ### Claim theorems: sandbox executor -/

/-- C1: when the sandbox executor runs a screened, compiled module, the
globals and locals mappings used for module-scope execution are the same
mapping, so a top-level definition can reference a sibling.  In the code
they are two distinct dicts: with the module of the repository's own
executor test (a top-level `helper_function` next to a `run_on_data` that
calls it), the sibling name lands in the returned namespace yet does not
resolve from inside the extracted entry point. -/
theorem c1_module_scope_namespaces :
    (execute_compiled ["helper_function", "run_on_data"]).exec_globals ≠
        (execute_compiled ["helper_function", "run_on_data"]).exec_locals
      ∧ "helper_function" ∈
          returned_namespace (execute_compiled ["helper_function", "run_on_data"])
      ∧ resolvesSibling (execute_compiled ["helper_function", "run_on_data"])
          "helper_function" = false := by
  refine ⟨by decide, by decide, by decide⟩

/-- C3 counterexample: `from .numpy import foo` is a relative import
(level 1), yet the static screen accepts it — only `module is None` is
treated as relative and the level field is never consulted. -/
theorem c3_counterexample_relative_import :
    check_imports [ImportNode.impFrom (some "numpy") 1] = Except.ok () := by
  rfl

/-- C3 (amended): screening accepts a node list iff every `import` alias
and every named `from`-module has its top-level component in the allow-list
and no `from`-import has `module = None`.  The relative-import level is
ignored (`from .m import x` is screened exactly like `from m import x`),
and the bare `from . import x` form is rejected. -/
theorem c3_import_screening :
    (∀ nodes : List ImportNode,
        check_imports nodes = Except.ok () ↔ ∀ node ∈ nodes, importAccepted node)
      ∧ (∀ (m : Option String) (l l' : ℕ),
          screenImport (.impFrom m l) = screenImport (.impFrom m l'))
      ∧ check_imports [ImportNode.impFrom none 1]
          = Except.error "Unsafe relative import is not allowed." := by
  have hnode : ∀ node : ImportNode,
      screenImport node = Except.ok () ↔ importAccepted node := by
    intro node
    cases node with
    | imp names =>
      simp only [screenImport, importAccepted]
      cases h : names.find? (fun nm => !allowed_modules.contains (topModule nm)) with
      | some nm =>
        have hp := List.find?_some h
        have hm := List.mem_of_find?_eq_some h
        simp only [Bool.not_eq_true'] at hp
        simp only [reduceCtorEq, false_iff]
        intro hall
        have hmem := hall nm hm
        rw [← List.elem_iff, ← List.contains] at hmem
        rw [hmem] at hp
        exact absurd hp (by decide)
      | none =>
        rw [List.find?_eq_none] at h
        simp only [true_iff]
        intro nm hm
        have hb := h nm hm
        rw [← List.elem_iff, ← List.contains]
        simpa using hb
    | impFrom m level =>
      cases m with
      | none => simp [screenImport, importAccepted]
      | some mm =>
        simp only [screenImport, importAccepted]
        by_cases hc : allowed_modules.contains (topModule mm)
        · rw [if_pos hc]
          simp only [true_iff]
          rw [← List.elem_iff, ← List.contains]
          exact hc
        · rw [if_neg hc]
          simp only [reduceCtorEq, false_iff]
          intro hmem
          rw [← List.elem_iff, ← List.contains] at hmem
          exact hc hmem
  refine ⟨?_, fun m l l' => by cases m <;> rfl, rfl⟩
  intro nodes
  rw [check_imports, forM_ok_iff]
  exact forall₂_congr (fun node _ => hnode node)

/-! ### Claim theorems: order validation -/

/-- C2 counterexample: `OrdersAdapter` accepts a one-element list whose
element has `amount = -1` (not `> 0`), an empty `holding_id`, and an extra
field — contradicting the claimed acceptance condition, which demands
`amount > 0`, a non-empty `holding_id`, and rejection of any extra field. -/
theorem c2_counterexample_validation :
    validate_python [badSellPayload]
        = Except.ok [Order.sell { holding_id := "", amount := -1 }]
      ∧ ¬ ((0 : ℚ) < -1) := by
  exact ⟨rfl, by norm_num⟩

/-- C2 (amended): structural validation succeeds iff every element is a
mapping with discriminator `"BUY"` or `"SELL"` and well-typed declared
fields (BUY: `asset == "BTC"` and a float `amount`, with optional
float-or-null `stop_loss`/`take_profit`; SELL: a string `holding_id` and a
float `amount`); extra fields are ignored and no positivity or
non-emptiness is checked at this stage (`amount > 0` is enforced later, at
application).  A list that fails validation is rejected as a whole with a
single error, and the rejection precedes application: the ledger is
returned unchanged. -/
theorem c2_structural_validation :
    (∀ xs : List JVal,
        (validate_python xs).isOk = true ↔ ∀ x ∈ xs, conformsStructurally x)
      ∧ (∀ (items : List JVal) (e : String) (open_price low high : ℚ) (st : Ledger),
          validate_python items = .error e →
            processOrders (.listv items) open_price low high st
              = .error ("Order error: invalid order payload(s): " ++ e, st)) := by
  constructor
  · intro xs
    rw [validate_python, mapM_isOk_iff]
    exact forall₂_congr (fun x _ => validateOrderElem_ok_iff x)
  · intro items e op lo hi st hval
    simp only [processOrders, JVal.isNull, Bool.false_eq_true, if_false, hval]

/-- Concrete instance for the amended C2: a non-mapping element is rejected
as a whole and the ledger comes back unchanged. -/
theorem c2_structural_validation_witness :
    processOrders (.listv [JVal.str "oops"]) 1 0 0 reset_portfolio
      = .error ("Order error: invalid order payload(s): Input should be a valid dictionary",
                reset_portfolio) :=
  c2_structural_validation.2 [JVal.str "oops"]
    "Input should be a valid dictionary" 1 0 0 reset_portfolio rfl

/-! ### Price table lemmas -/

theorem takeWhile_eq_filter_of_sorted (c : ℤ) :
    ∀ df : List Bar, df.Pairwise (fun a b => a.date ≤ b.date) →
      df.takeWhile (fun b => decide (b.date ≤ c))
        = df.filter (fun b => decide (b.date ≤ c)) := by
  intro df hs
  induction df with
  | nil => rfl
  | cons a t ih =>
    rcases List.pairwise_cons.mp hs with ⟨ha, ht⟩
    by_cases h : a.date ≤ c
    · have hd : decide (a.date ≤ c) = true := decide_eq_true h
      simp [List.takeWhile_cons, List.filter_cons, hd, ih ht]
    · have hd : decide (a.date ≤ c) = false := decide_eq_false h
      simp only [List.takeWhile_cons, List.filter_cons, hd, Bool.false_eq_true,
        if_false]
      rw [eq_comm, List.filter_eq_nil_iff]
      intro b hb
      simp only [decide_eq_true_eq]
      exact fun hbc => h (le_trans (ha b hb) hbc)

theorem get_df_until_date_eq_filter (df : List Bar)
    (hs : df.Pairwise (fun a b => a.date ≤ b.date)) (d : Ts) :
    get_df_until_date df d = df.filter (fun b => decide (b.date ≤ d.day)) :=
  takeWhile_eq_filter_of_sorted d.day df hs

theorem sorted_head_le (l : List ℤ) (a : ℤ)
    (hs : l.Pairwise (fun x y => x ≤ y)) (hh : l.head? = some a) :
    ∀ x ∈ l, a ≤ x := by
  cases l with
  | nil => cases hh
  | cons b t =>
    rcases List.pairwise_cons.mp hs with ⟨hb, -⟩
    cases hh
    intro x hx
    rcases List.mem_cons.mp hx with rfl | hx'
    · exact le_refl x
    · exact hb x hx'

theorem get_trading_dates_ok (df : List Bar) (s e : Ts) (dates : List ℤ)
    (h : get_trading_dates df s e = .ok dates) :
    ∃ subset, validate_and_slice_range df s e = .ok subset
      ∧ dates = subset.map (fun b => b.date) := by
  unfold get_trading_dates at h
  cases hv : validate_and_slice_range df s e with
  | error msg => rw [hv] at h; cases h
  | ok subset =>
    rw [hv] at h
    refine ⟨subset, rfl, ?_⟩
    simpa [Except.map] using h.symm

theorem validate_and_slice_range_ok (df : List Bar) (s e : Ts)
    (subset : List Bar)
    (h : validate_and_slice_range df s e = .ok subset) :
    subset = df.filter
      (fun b => decide (s.day ≤ b.date) && decide (b.date ≤ e.day)) := by
  unfold validate_and_slice_range at h
  by_cases h1 : (normalizeTs e).day < (normalizeTs s).day
  · rw [if_pos h1] at h
    cases h
  · rw [if_neg h1] at h
    cases hh : df.head? with
    | none =>
      rw [hh] at h
      cases h
    | some first =>
      rw [hh] at h
      cases hl : df.getLast? with
      | none =>
        rw [hl] at h
        cases h
      | some last =>
        rw [hl] at h
        dsimp only at h
        by_cases h2 : (normalizeTs s).day < first.date ∨ last.date < (normalizeTs e).day
        · rw [if_pos h2] at h
          cases h
        · rw [if_neg h2] at h
          by_cases h3 : (df.filter (fun b =>
              decide ((normalizeTs s).day ≤ b.date)
                && decide (b.date ≤ (normalizeTs e).day))).isEmpty
          · rw [if_pos h3] at h
            cases h
          · rw [if_neg h3] at h
            injection h with h'
            exact h'.symm

/-! ### Claim theorems: price table and day loop -/

/-- C8: on the sorted table, the prefix operation returns exactly the bars
with date ≤ the normalized cutoff day, in ascending order; the intraday
part of the cutoff is irrelevant (the cutoff's own bar is admitted), and
the result is an empty list — not an error — when no bar qualifies. -/
theorem c8_prefix_until (df : List Bar)
    (hs : df.Pairwise (fun a b => a.date ≤ b.date)) :
    (∀ d : Ts, get_df_until_date df d
        = df.filter (fun b => decide (b.date ≤ (normalizeTs d).day)))
      ∧ (∀ (dy : ℤ) (t : ℚ),
          get_df_until_date df { day := dy, tod := t }
            = get_df_until_date df { day := dy })
      ∧ (∀ (dy : ℤ) (t : ℚ) (b : Bar), b ∈ df → b.date = dy →
          b ∈ get_df_until_date df { day := dy, tod := t })
      ∧ (∀ d : Ts, (get_df_until_date df d).Pairwise (fun a b => a.date ≤ b.date))
      ∧ (∀ d : Ts, (∀ b ∈ df, ¬ b.date ≤ d.day) → get_df_until_date df d = []) := by
  refine ⟨fun d => get_df_until_date_eq_filter df hs d, fun dy t => rfl, ?_, ?_, ?_⟩
  · intro dy t b hb hdate
    rw [get_df_until_date_eq_filter df hs]
    exact List.mem_filter.mpr ⟨hb, by simp [hdate]⟩
  · intro d
    rw [get_df_until_date_eq_filter df hs]
    exact hs.filter _
  · intro d hnone
    rw [get_df_until_date_eq_filter df hs, List.filter_eq_nil_iff]
    intro b hb
    simpa using hnone b hb

/-- Concrete instance for C8, at a cutoff carrying an intraday component
whose own bar (date 2) is admitted. -/
theorem c8_prefix_until_witness :
    sampleBars.Pairwise (fun a b => a.date ≤ b.date)
      ∧ get_df_until_date sampleBars { day := 2, tod := 1/2 }
          = sampleBars.filter
              (fun b => decide (b.date ≤ (normalizeTs { day := 2, tod := 1/2 }).day)) :=
  ⟨by decide, (c8_prefix_until sampleBars (by decide)).1 { day := 2, tod := 1/2 }⟩

/-- C10: once the warm-up check passed for the first trading date, every
day of the loop sees a non-empty view, so the in-loop empty-view error is
unreachable and `_last_known_close`'s last-row access succeeds. -/
theorem c10_loop_views_nonempty (df : List Bar) (s e : Ts) (dates : List ℤ)
    (d0 : ℤ)
    (hs : df.Pairwise (fun a b => a.date ≤ b.date))
    (hdates : get_trading_dates df s e = .ok dates)
    (hd0 : dates.head? = some d0)
    (hwarm : strategy_df df d0 ≠ []) :
    ∀ d ∈ dates, strategy_df df d ≠ []
      ∧ (last_known_close (strategy_df df d)).isSome = true := by
  obtain ⟨subset, hv, hmap⟩ := get_trading_dates_ok df s e dates hdates
  have hsubset := validate_and_slice_range_ok df s e subset hv
  have hdsorted : dates.Pairwise (fun x y => x ≤ y) := by
    rw [hmap, List.pairwise_map, hsubset]
    exact hs.filter _
  have hmin := sorted_head_le dates d0 hdsorted hd0
  obtain ⟨b0, hb0mem, hb0le⟩ : ∃ b ∈ df, b.date ≤ d0 - 1 := by
    have hne := hwarm
    rw [strategy_df, get_df_until_date_eq_filter df hs] at hne
    rcases List.exists_mem_of_ne_nil _ hne with ⟨b, hb⟩
    rcases List.mem_filter.mp hb with ⟨hbdf, hbp⟩
    exact ⟨b, hbdf, by simpa using hbp⟩
  intro d hd
  have hne : strategy_df df d ≠ [] := by
    rw [strategy_df, get_df_until_date_eq_filter df hs]
    refine List.ne_nil_of_mem (a := b0) (List.mem_filter.mpr ⟨hb0mem, ?_⟩)
    have : b0.date ≤ d - 1 := le_trans hb0le (by have := hmin d hd; omega)
    simpa using this
  refine ⟨hne, ?_⟩
  cases hgl : (strategy_df df d).getLast? with
  | none => exact absurd (List.getLast?_eq_none_iff.mp hgl) hne
  | some b => simp [last_known_close, hgl]

/-- Concrete instance for C10 on the sample table. -/
theorem c10_loop_views_nonempty_witness :
    strategy_df sampleBars 2 ≠ []
      ∧ (last_known_close (strategy_df sampleBars 2)).isSome = true :=
  c10_loop_views_nonempty sampleBars { day := 2 } { day := 2 } [2] 2
    (by decide) (by rfl) (by rfl) (by decide) 2 (by decide)

/-! ### Ledger list lemmas -/

theorem mem_map_holding_id {l : List HoldingState} {g : HoldingState}
    (h : g ∈ l) : g.holding_id ∈ l.map (fun x => x.holding_id) :=
  List.mem_map_of_mem _ h

theorem map_if_eq_self (p : HoldingState → Bool) (f : HoldingState → HoldingState)
    (l : List HoldingState) (h : ∀ x ∈ l, p x = false) :
    l.map (fun x => if p x then f x else x) = l :=
  (List.map_congr_left (fun a ha => by rw [h a ha]; simp)).trans (List.map_id' l)

theorem updateFirst_eq_map (p : HoldingState → Bool) (f : HoldingState → HoldingState) :
    ∀ l : List HoldingState, l.countP p ≤ 1 →
      updateFirst p f l = l.map (fun x => if p x then f x else x) := by
  intro l h
  induction l with
  | nil => rfl
  | cons a t ih =>
    rw [List.countP_cons] at h
    by_cases hp : p a = true
    · rw [if_pos hp] at h
      have ht : t.countP p = 0 := by omega
      have hall : ∀ x ∈ t, p x = false := by
        intro x hx
        have := List.countP_eq_zero.mp ht x hx
        simpa using this
      simp only [updateFirst, hp, if_true, List.map_cons]
      rw [map_if_eq_self p f t hall]
    · have hp' : p a = false := by simpa using hp
      rw [if_neg (by simp [hp'])] at h
      simp only [updateFirst, hp', Bool.false_eq_true, if_false, List.map_cons]
      rw [ih h]

theorem countP_usd_le_one (l : List HoldingState)
    (hnd : (l.map (fun h => h.holding_id)).Nodup)
    (hid : ∀ h ∈ l, h.asset = Asset.usd → h.holding_id = USD_HOLDING_ID) :
    l.countP (fun h => h.asset == Asset.usd) ≤ 1 := by
  induction l with
  | nil => simp
  | cons a t ih =>
    rw [List.map_cons, List.nodup_cons] at hnd
    obtain ⟨hna, hnt⟩ := hnd
    rw [List.countP_cons]
    by_cases ha : a.asset = Asset.usd
    · have h1 : t.countP (fun h => h.asset == Asset.usd) = 0 := by
        rw [List.countP_eq_zero]
        intro b hb hbeq
        have hbusd : b.asset = Asset.usd := by simpa using hbeq
        have hbid := hid b (List.mem_cons_of_mem a hb) hbusd
        have haid := hid a (List.mem_cons_self a t) ha
        exact hna (by rw [haid, ← hbid]; exact mem_map_holding_id hb)
      simp [h1, ha]
    · have ha' : (a.asset == Asset.usd) = false := by simpa using ha
      have h2 := ih hnt (fun h hh => hid h (List.mem_cons_of_mem a hh))
      simp [ha']
      omega

theorem countP_id_le_one (l : List HoldingState) (hid : String)
    (hnd : (l.map (fun h => h.holding_id)).Nodup) :
    l.countP (fun h => h.holding_id == hid) ≤ 1 := by
  induction l with
  | nil => simp
  | cons a t ih =>
    rw [List.map_cons, List.nodup_cons] at hnd
    obtain ⟨hna, hnt⟩ := hnd
    rw [List.countP_cons]
    by_cases ha : a.holding_id = hid
    · have h1 : t.countP (fun h => h.holding_id == hid) = 0 := by
        rw [List.countP_eq_zero]
        intro b hb hbeq
        have hbid : b.holding_id = hid := by simpa using hbeq
        exact hna (by rw [ha, ← hbid]; exact mem_map_holding_id hb)
      simp [h1, ha]
    · have ha' : (a.holding_id == hid) = false := by simpa using ha
      have h2 := ih hnt
      simp [ha']
      omega

theorem find_holding_eq_of_mem (g : HoldingState) :
    ∀ l : List HoldingState, g ∈ l →
      (l.map (fun h => h.holding_id)).Nodup →
      find_holding g.holding_id l = some g := by
  intro l
  induction l with
  | nil => intro h; cases h
  | cons a t ih =>
    intro hmem hnd
    rw [List.map_cons, List.nodup_cons] at hnd
    obtain ⟨hna, hnt⟩ := hnd
    rcases List.mem_cons.mp hmem with rfl | hmt
    · simp [find_holding, List.find?_cons_of_pos]
    · have hne : (a.holding_id == g.holding_id) = false := by
        simp only [beq_eq_false_iff_ne, ne_eq]
        intro heq
        exact hna (heq ▸ mem_map_holding_id hmt)
      rw [find_holding, List.find?_cons_of_neg _ (by simp [hne])]
      exact ih hmt hnt

theorem find_holding_mem {hid : String} {l : List HoldingState} {g : HoldingState}
    (h : find_holding hid l = some g) : g ∈ l ∧ g.holding_id = hid :=
  ⟨List.mem_of_find?_eq_some h, by simpa using List.find?_some h⟩

theorem find_holding_none_iff (hid : String) (l : List HoldingState) :
    find_holding hid l = none ↔ ∀ g ∈ l, g.holding_id ≠ hid := by
  unfold find_holding
  rw [List.find?_eq_none]
  simp

theorem get_usd_holding_mem {l : List HoldingState} {u : HoldingState}
    (h : get_usd_holding l = some u) : u ∈ l ∧ u.asset = Asset.usd :=
  ⟨List.mem_of_find?_eq_some h, by simpa using List.find?_some h⟩

theorem get_usd_holding_isSome_of_exists {l : List HoldingState}
    (h : ∃ u ∈ l, u.asset = Asset.usd) : (get_usd_holding l).isSome = true := by
  unfold get_usd_holding
  rw [List.find?_isSome]
  obtain ⟨u, hu, hasset⟩ := h
  exact ⟨u, hu, by simp [hasset]⟩

/-! ### Characterization of order application -/

theorem map_holding_id_map (g : HoldingState → HoldingState)
    (hg : ∀ x, (g x).holding_id = x.holding_id) (l : List HoldingState) :
    (l.map g).map (fun h => h.holding_id) = l.map (fun h => h.holding_id) := by
  rw [List.map_map]
  exact List.map_congr_left (fun a _ => hg a)

theorem usd_id_map (g : HoldingState → HoldingState)
    (hgasset : ∀ x, (g x).asset = x.asset)
    (hgid : ∀ x, (g x).holding_id = x.holding_id)
    (l : List HoldingState)
    (husd : ∀ h ∈ l, h.asset = Asset.usd → h.holding_id = USD_HOLDING_ID) :
    ∀ h ∈ l.map g, h.asset = Asset.usd → h.holding_id = USD_HOLDING_ID := by
  intro h hm hasset
  rcases List.mem_map.mp hm with ⟨x, hx, rfl⟩
  rw [hgid]
  exact husd x hx (by rw [← hgasset]; exact hasset)

theorem exists_usd_updateFirst (p : HoldingState → Bool)
    (f : HoldingState → HoldingState) (hf : ∀ x, (f x).asset = x.asset) :
    ∀ l : List HoldingState, (∃ u ∈ l, u.asset = Asset.usd) →
      ∃ u ∈ updateFirst p f l, u.asset = Asset.usd := by
  intro l h
  induction l with
  | nil => simpa using h
  | cons a t ih =>
    obtain ⟨u, hu, husd⟩ := h
    by_cases hp : p a = true
    · simp only [updateFirst, hp, if_true]
      rcases List.mem_cons.mp hu with rfl | hut
      · exact ⟨f u, List.mem_cons_self _ _, by rw [hf]; exact husd⟩
      · exact ⟨u, List.mem_cons_of_mem _ hut, husd⟩
    · have hp' : p a = false := by simpa using hp
      simp only [updateFirst, hp', Bool.false_eq_true, if_false]
      rcases List.mem_cons.mp hu with rfl | hut
      · exact ⟨u, List.mem_cons_self _ _, husd⟩
      · obtain ⟨v, hv, hvusd⟩ := ih ⟨u, hut, husd⟩
        exact ⟨v, List.mem_cons_of_mem _ hv, hvusd⟩

/-- Successful `_apply_buy` from a structurally sound ledger: the (unique)
USD holding is decremented by exactly `amount * execution_price`, one BTC
holding with the freshly minted id and the order's SL/TP is appended, and
the id counter advances. -/
theorem apply_buy_char (st : Ledger) (o : BuyOrder) (p : ℚ) (u : HoldingState)
    (hw : WInv st)
    (hamt : 0 < o.amount)
    (husd : get_usd_holding st.holdings = some u)
    (hcost : o.amount * p ≤ u.amount + eps) :
    apply_buy o p st = .ok
      { holdings :=
          (st.holdings.map (fun x =>
            if x.asset == Asset.usd
            then { x with amount := x.amount - o.amount * p } else x))
          ++ [{ holding_id := mintId st.next_id, asset := .btc,
                amount := o.amount, stop_loss := o.stop_loss,
                take_profit := o.take_profit }],
        next_id := st.next_id + 1 } := by
  unfold apply_buy
  rw [if_neg (not_le.mpr hamt), husd]
  dsimp only
  rw [if_neg (not_lt.mpr hcost),
    updateFirst_eq_map _ _ _ (countP_usd_le_one st.holdings hw.ids_nodup hw.usd_id)]

theorem apply_buy_ok_inversion (st st' : Ledger) (o : BuyOrder) (p : ℚ)
    (h : apply_buy o p st = .ok st') :
    0 < o.amount ∧ ∃ u, get_usd_holding st.holdings = some u
      ∧ o.amount * p ≤ u.amount + eps := by
  unfold apply_buy at h
  by_cases h1 : o.amount ≤ 0
  · rw [if_pos h1] at h
    cases h
  · rw [if_neg h1] at h
    cases hu : get_usd_holding st.holdings with
    | none =>
      rw [hu] at h
      cases h
    | some u =>
      rw [hu] at h
      dsimp only at h
      by_cases h2 : u.amount + eps < o.amount * p
      · rw [if_pos h2] at h
        cases h
      · exact ⟨not_le.mp h1, u, rfl, not_lt.mp h2⟩

theorem apply_buy_error_state (st st'' : Ledger) (o : BuyOrder) (p : ℚ)
    (m : String) (h : apply_buy o p st = .error (m, st'')) : st'' = st := by
  unfold apply_buy at h
  by_cases h1 : o.amount ≤ 0
  · rw [if_pos h1] at h
    injection h with h'
    exact (congrArg Prod.snd h').symm
  · rw [if_neg h1] at h
    cases hu : get_usd_holding st.holdings with
    | none =>
      rw [hu] at h
      injection h with h'
      exact (congrArg Prod.snd h').symm
    | some u =>
      rw [hu] at h
      dsimp only at h
      by_cases h2 : u.amount + eps < o.amount * p
      · rw [if_pos h2] at h
        injection h with h'
        exact (congrArg Prod.snd h').symm
      · rw [if_neg h2] at h
        cases h

/-- Successful `_apply_sell` from a structurally sound ledger: the (unique)
holding with the order's id is decremented by exactly the sold amount —
keeping its SL/TP — the (unique) USD holding is credited with exactly
`amount * execution_price`, every other holding is untouched, and the
target is removed iff its remaining amount is ≤ ε. -/
theorem apply_sell_char (st : Ledger) (o : SellOrder) (p : ℚ)
    (target : HoldingState)
    (hw : WInv st)
    (hamt : 0 < o.amount)
    (hne : o.holding_id ≠ USD_HOLDING_ID)
    (hfind : find_holding o.holding_id st.holdings = some target)
    (hasset : target.asset = Asset.btc)
    (hle : o.amount ≤ target.amount + eps) :
    apply_sell o p st = .ok
      { holdings :=
          if target.amount - o.amount ≤ eps
          then (st.holdings.map (fun x =>
              if x.holding_id == o.holding_id
              then { x with amount := x.amount - o.amount }
              else if x.asset == Asset.usd
              then { x with amount := x.amount + o.amount * p } else x)).filter
            (fun x => !(x.holding_id == o.holding_id))
          else st.holdings.map (fun x =>
              if x.holding_id == o.holding_id
              then { x with amount := x.amount - o.amount }
              else if x.asset == Asset.usd
              then { x with amount := x.amount + o.amount * p } else x),
        next_id := st.next_id } := by
  have hdec_id : ∀ x : HoldingState,
      ((fun y => if y.holding_id == o.holding_id
        then { y with amount := y.amount - o.amount } else y) x).holding_id
        = x.holding_id := by
    intro x
    by_cases hx : (x.holding_id == o.holding_id) = true <;> simp [hx]
  have hdec_asset : ∀ x : HoldingState,
      ((fun y => if y.holding_id == o.holding_id
        then { y with amount := y.amount - o.amount } else y) x).asset
        = x.asset := by
    intro x
    by_cases hx : (x.holding_id == o.holding_id) = true <;> simp [hx]
  unfold apply_sell
  rw [if_neg (not_le.mpr hamt), if_neg hne, hfind]
  dsimp only
  rw [if_neg (by simp [hasset]), if_neg (not_lt.mpr hle)]
  rw [updateFirst_eq_map _ _ _ (countP_id_le_one st.holdings o.holding_id hw.ids_nodup)]
  set g1 : HoldingState → HoldingState := fun y =>
    if y.holding_id == o.holding_id
    then { y with amount := y.amount - o.amount } else y with hg1
  have husd_mem : ∃ u ∈ st.holdings.map (fun x => if x.holding_id == o.holding_id
      then { x with amount := x.amount - o.amount } else x), u.asset = Asset.usd := by
    obtain ⟨u, hu, husd⟩ := hw.usd_exists
    refine ⟨u, ?_, husd⟩
    have hid : (u.holding_id == o.holding_id) = false := by
      simp only [beq_eq_false_iff_ne, ne_eq]
      intro heq
      exact hne (by rw [← heq, hw.usd_id u hu husd])
    have : (fun x => if x.holding_id == o.holding_id
        then { x with amount := x.amount - o.amount } else x) u = u := by
      simp [hid]
    exact this ▸ List.mem_map_of_mem _ hu
  cases hu1 : get_usd_holding (st.holdings.map (fun x =>
      if x.holding_id == o.holding_id
      then { x with amount := x.amount - o.amount } else x)) with
  | none =>
    have := get_usd_holding_isSome_of_exists husd_mem
    rw [hu1] at this
    cases this
  | some u1 =>
    dsimp only
    have hnd1 : ((st.holdings.map (fun x => if x.holding_id == o.holding_id
        then { x with amount := x.amount - o.amount } else x)).map
          (fun h => h.holding_id)).Nodup := by
      rw [map_holding_id_map _ hdec_id]
      exact hw.ids_nodup
    have husd1 : ∀ h ∈ st.holdings.map (fun x => if x.holding_id == o.holding_id
        then { x with amount := x.amount - o.amount } else x),
        h.asset = Asset.usd → h.holding_id = USD_HOLDING_ID :=
      usd_id_map _ hdec_asset hdec_id _ hw.usd_id
    rw [updateFirst_eq_map _ _ _ (countP_usd_le_one _ hnd1 husd1)]
    rw [List.map_map]
    have hcongr : st.holdings.map ((fun x => if x.asset == Asset.usd
        then { x with amount := x.amount + o.amount * p } else x) ∘
        (fun x => if x.holding_id == o.holding_id
        then { x with amount := x.amount - o.amount } else x))
        = st.holdings.map (fun x =>
          if x.holding_id == o.holding_id
          then { x with amount := x.amount - o.amount }
          else if x.asset == Asset.usd
          then { x with amount := x.amount + o.amount * p } else x) := by
      refine List.map_congr_left ?_
      intro x hx
      by_cases hxid : (x.holding_id == o.holding_id) = true
      · have hxusd : (x.asset == Asset.usd) = false := by
          simp only [beq_eq_false_iff_ne, ne_eq]
          intro hxa
          have hid := hw.usd_id x hx hxa
          have hxeq : x.holding_id = o.holding_id := beq_iff_eq.mp hxid
          exact hne (by rw [← hxeq]; exact hid)
        simp only [Function.comp_apply, hxid, if_true, hxusd]
        simp [hxusd]
      · have hxid' : (x.holding_id == o.holding_id) = false := by simpa using hxid
        simp only [Function.comp_apply, hxid', Bool.false_eq_true, if_false]
    rw [hcongr]

theorem apply_sell_ok_inversion (st st' : Ledger) (o : SellOrder) (p : ℚ)
    (h : apply_sell o p st = .ok st') :
    0 < o.amount ∧ o.holding_id ≠ USD_HOLDING_ID
      ∧ ∃ target, find_holding o.holding_id st.holdings = some target
          ∧ target.asset = Asset.btc ∧ o.amount ≤ target.amount + eps := by
  unfold apply_sell at h
  by_cases h1 : o.amount ≤ 0
  · rw [if_pos h1] at h
    cases h
  · rw [if_neg h1] at h
    by_cases h2 : o.holding_id = USD_HOLDING_ID
    · rw [if_pos h2] at h
      cases h
    · rw [if_neg h2] at h
      cases hf : find_holding o.holding_id st.holdings with
      | none =>
        rw [hf] at h
        cases h
      | some target =>
        rw [hf] at h
        dsimp only at h
        by_cases h3 : target.asset ≠ Asset.btc
        · rw [if_pos h3] at h
          cases h
        · rw [if_neg h3] at h
          by_cases h4 : target.amount + eps < o.amount
          · rw [if_pos h4] at h
            cases h
          · exact ⟨not_le.mp h1, h2, target, rfl, not_not.mp h3, not_lt.mp h4⟩

theorem apply_sell_error_state (st st'' : Ledger) (o : SellOrder) (p : ℚ)
    (m : String)
    (husd : ∃ u ∈ st.holdings, u.asset = Asset.usd)
    (h : apply_sell o p st = .error (m, st'')) : st'' = st := by
  unfold apply_sell at h
  by_cases h1 : o.amount ≤ 0
  · rw [if_pos h1] at h
    injection h with h'
    exact (congrArg Prod.snd h').symm
  · rw [if_neg h1] at h
    by_cases h2 : o.holding_id = USD_HOLDING_ID
    · rw [if_pos h2] at h
      injection h with h'
      exact (congrArg Prod.snd h').symm
    · rw [if_neg h2] at h
      cases hf : find_holding o.holding_id st.holdings with
      | none =>
        rw [hf] at h
        injection h with h'
        exact (congrArg Prod.snd h').symm
      | some target =>
        rw [hf] at h
        dsimp only at h
        by_cases h3 : target.asset ≠ Asset.btc
        · rw [if_pos h3] at h
          injection h with h'
          exact (congrArg Prod.snd h').symm
        · rw [if_neg h3] at h
          by_cases h4 : target.amount + eps < o.amount
          · rw [if_pos h4] at h
            injection h with h'
            exact (congrArg Prod.snd h').symm
          · rw [if_neg h4] at h
            split at h
            · rename_i heq
              have hex := exists_usd_updateFirst
                (fun x => x.holding_id == o.holding_id)
                (fun x => { x with amount := x.amount - o.amount })
                (fun x => rfl) st.holdings husd
              have hsome := get_usd_holding_isSome_of_exists hex
              rw [heq] at hsome
              cases hsome
            · by_cases h5 : target.amount - o.amount ≤ eps
              · rw [if_pos h5] at h
                cases h
              · rw [if_neg h5] at h
                cases h

theorem fresh_mintId (st : Ledger) (hw : WInv st) :
    ∀ h ∈ st.holdings, h.holding_id ≠ mintId st.next_id := by
  intro h hm
  cases hasset : h.asset with
  | usd =>
    rw [hw.usd_id h hm hasset]
    exact fun he => mintId_ne_usd st.next_id he.symm
  | btc =>
    obtain ⟨k, _, hk2, hk3⟩ := hw.btc_ids h hm hasset
    rw [hk3]
    intro he
    have := mintId_injective he
    omega

theorem eps_pos : (0 : ℚ) < eps := by norm_num [eps]

theorem Inv_reset : Inv reset_portfolio := by
  refine ⟨⟨?_, ?_, ?_, ?_⟩, ?_, ?_⟩
  · exact ⟨{ holding_id := USD_HOLDING_ID, asset := .usd,
             amount := INITIAL_PORTFOLIO_USD }, List.mem_cons_self _ _, rfl⟩
  · intro h hm _
    simp only [reset_portfolio, List.mem_cons, List.not_mem_nil, or_false] at hm
    rw [hm]
  · decide
  · intro h hm hb
    simp only [reset_portfolio, List.mem_cons, List.not_mem_nil, or_false] at hm
    rw [hm] at hb
    exact absurd hb (by decide)
  · intro h hm
    simp only [reset_portfolio, List.mem_cons, List.not_mem_nil, or_false] at hm
    rw [hm]
    norm_num [INITIAL_PORTFOLIO_USD, eps]
  · exact le_refl 1

/-! ### Claim theorems: ledger round trip -/

/-- C7: from any invariant-respecting ledger, a BUY of amount `a` at price
`p` followed by a SELL of the full amount of the newly created holding at
the same price restores the holdings list exactly (in particular the USD
amount), removes the BTC holding, and leaves only the id counter advanced. -/
theorem c7_round_trip (st : Ledger) (o : BuyOrder) (p : ℚ)
    (hInv : Inv st) (ha : 0 < o.amount) (hp : 0 < p)
    (hcost : o.amount * p ≤ usdAmount st + eps) :
    ∃ st1, apply_buy o p st = .ok st1
      ∧ apply_sell { holding_id := mintId st.next_id, amount := o.amount } p st1
          = .ok { holdings := st.holdings, next_id := st.next_id + 1 } := by
  obtain ⟨u, husd⟩ : ∃ u, get_usd_holding st.holdings = some u := by
    have hiss := get_usd_holding_isSome_of_exists hInv.usd_exists
    cases hu : get_usd_holding st.holdings with
    | none => rw [hu] at hiss; cases hiss
    | some u => exact ⟨u, rfl⟩
  have hua : usdAmount st = u.amount := by simp [usdAmount, husd]
  rw [hua] at hcost
  have hbuy := apply_buy_char st o p u hInv.toWInv ha husd hcost
  refine ⟨_, hbuy, ?_⟩
  set n := st.next_id with hn
  set newh : HoldingState := { holding_id := mintId n, asset := .btc,
                               amount := o.amount, stop_loss := o.stop_loss,
                               take_profit := o.take_profit } with hnewh
  set g : HoldingState → HoldingState := fun x =>
    if x.asset == Asset.usd
    then { x with amount := x.amount - o.amount * p } else x with hg
  set st1 : Ledger := { holdings := st.holdings.map g ++ [newh],
                        next_id := n + 1 } with hst1
  have hgid : ∀ x, (g x).holding_id = x.holding_id := by
    intro x
    by_cases hx : x.asset = Asset.usd <;> simp [hg, hx]
  have hgasset : ∀ x, (g x).asset = x.asset := by
    intro x
    by_cases hx : x.asset = Asset.usd <;> simp [hg, hx]
  have hfresh := fresh_mintId st hInv.toWInv
  have hids1 : st1.holdings.map (fun h => h.holding_id)
      = st.holdings.map (fun h => h.holding_id) ++ [mintId n] := by
    rw [hst1]
    simp only [List.map_append, map_holding_id_map g hgid]
    rfl
  have hnd1 : (st1.holdings.map (fun h => h.holding_id)).Nodup := by
    rw [hids1]
    rw [List.nodup_append]
    refine ⟨hInv.ids_nodup, List.nodup_singleton _, ?_⟩
    intro a ha1 hb1
    rcases List.mem_map.mp ha1 with ⟨x, hx, rfl⟩
    simp only [List.mem_singleton] at hb1
    exact hfresh x hx hb1
  have hw1 : WInv st1 := by
    refine ⟨?_, ?_, hnd1, ?_⟩
    · obtain ⟨v, hv, hvusd⟩ := hInv.usd_exists
      exact ⟨g v, List.mem_append_left _ (List.mem_map_of_mem g hv),
        by rw [hgasset]; exact hvusd⟩
    · intro h hm hasset
      rcases List.mem_append.mp hm with hm1 | hm2
      · exact usd_id_map g hgasset hgid st.holdings hInv.usd_id h hm1 hasset
      · simp only [List.mem_singleton] at hm2
        rw [hm2] at hasset
        exact absurd hasset (by simp [hnewh])
    · intro h hm hasset
      rcases List.mem_append.mp hm with hm1 | hm2
      · rcases List.mem_map.mp hm1 with ⟨x, hx, rfl⟩
        obtain ⟨k, hk1, hk2, hk3⟩ := hInv.btc_ids x hx
          (by rw [← hgasset]; exact hasset)
        exact ⟨k, hk1, by simp only [hst1]; omega, by rw [hgid]; exact hk3⟩
      · simp only [List.mem_singleton] at hm2
        refine ⟨n, hInv.next_pos, by simp only [hst1]; omega, ?_⟩
        rw [hm2]
  have hfind1 : find_holding (mintId n) st1.holdings = some newh := by
    rw [hst1]
    show List.find? _ (st.holdings.map g ++ [newh]) = some newh
    rw [List.find?_append]
    have h1 : (st.holdings.map g).find?
        (fun h => h.holding_id == mintId n) = none := by
      rw [List.find?_eq_none]
      intro x hx
      rcases List.mem_map.mp hx with ⟨y, hy, rfl⟩
      simp only [beq_eq_false_iff_ne, ne_eq, Bool.not_eq_true]
      rw [hgid]
      simp [hfresh y hy]
    rw [h1, Option.none_or]
    simp [hnewh]
  have hle : o.amount ≤ newh.amount + eps := by
    have := eps_pos
    simp only [hnewh]
    linarith
  have hsell := apply_sell_char st1 { holding_id := mintId n, amount := o.amount }
    p newh hw1 ha (mintId_ne_usd n) hfind1 (by rw [hnewh]) hle
  rw [hsell]
  have hcond : newh.amount - o.amount ≤ eps := by
    have := eps_pos
    simp only [hnewh]
    linarith
  congr 1
  rw [if_pos hcond]
  dsimp only
  congr 1
  set comb : HoldingState → HoldingState := fun x =>
    if x.holding_id == mintId n
    then { x with amount := x.amount - o.amount }
    else if x.asset == Asset.usd
    then { x with amount := x.amount + o.amount * p } else x with hcomb
  have hcombid : ∀ x, (comb x).holding_id = x.holding_id := by
    intro x
    by_cases h1 : x.holding_id = mintId n
    · simp [hcomb, h1]
    · by_cases h2 : x.asset = Asset.usd <;> simp [hcomb, h1, h2]
  show ((st.holdings.map g ++ [newh]).map comb).filter
      (fun x => !(x.holding_id == mintId n)) = st.holdings
  rw [List.map_append, List.filter_append]
  have hnewfilter : ([newh].map comb).filter
      (fun x => !(x.holding_id == mintId n)) = [] := by
    simp only [List.map_cons, List.map_nil, List.filter_cons]
    rw [if_neg (by simp [hcombid, hnewh])]
    rfl
  rw [hnewfilter, List.append_nil]
  have hkeep : ((st.holdings.map g).map comb).filter
      (fun x => !(x.holding_id == mintId n)) = (st.holdings.map g).map comb := by
    rw [List.filter_eq_self]
    intro x hx
    rcases List.mem_map.mp hx with ⟨y, hy, rfl⟩
    rcases List.mem_map.mp hy with ⟨z, hz, rfl⟩
    rw [Bool.not_eq_eq_eq_not, Bool.not_true, beq_eq_false_iff_ne, ne_eq,
      hcombid, hgid]
    exact hfresh z hz
  rw [hkeep, List.map_map]
  refine (List.map_congr_left ?_).trans (List.map_id' st.holdings)
  intro x hx
  simp only [Function.comp_apply]
  have hidx : ¬ (x.holding_id == mintId n) = true := by
    simp only [beq_iff_eq]
    exact hfresh x hx
  by_cases hxusd : x.asset = Asset.usd
  · have hgx : g x = { x with amount := x.amount - o.amount * p } := by
      simp only [hg]
      exact if_pos (beq_iff_eq.mpr hxusd)
    rw [hgx]
    simp only [hcomb]
    rw [if_neg (show ¬ (({ x with amount := x.amount - o.amount * p } :
        HoldingState).holding_id == mintId n) = true from hidx)]
    rw [if_pos (show (({ x with amount := x.amount - o.amount * p } :
        HoldingState).asset == Asset.usd) = true from beq_iff_eq.mpr hxusd)]
    cases x
    simp only [HoldingState.mk.injEq, and_true, true_and]
    ring
  · have hgx : g x = x := by
      simp only [hg]
      exact if_neg (by simp [hxusd])
    rw [hgx]
    simp only [hcomb]
    rw [if_neg hidx, if_neg (by simp [hxusd])]

/-- Concrete instance for C7: buy 1 BTC at 100 from the reset ledger and
sell holding `H1` in full at 100; the holdings list returns to the single
USD holding of 10000. -/
theorem c7_round_trip_witness :
    ∃ st1, apply_buy { amount := 1 } 100 reset_portfolio = .ok st1
      ∧ apply_sell { holding_id := mintId 1, amount := 1 } 100 st1
          = .ok { holdings := reset_portfolio.holdings, next_id := 2 } :=
  c7_round_trip reset_portfolio { amount := 1 } 100 Inv_reset (by norm_num)
    (by norm_num)
    (by norm_num [usdAmount, get_usd_holding, reset_portfolio, eps,
      INITIAL_PORTFOLIO_USD, List.find?])

/-! ### Claim theorems: frame effects of order application -/

/-- C9: a successful buy changes only the USD amount (down by exactly
`amount * execution_price`) and appends one BTC holding carrying the
order's SL/TP verbatim; a successful sell changes only the target's amount
(removing it when it falls to ≤ ε) and the USD amount (up by exactly
`amount * execution_price`), preserving every other holding and the
target's SL/TP; on failure both operations leave the ledger unchanged
(for sell, given the USD holding exists, which the invariant guarantees). -/
theorem c9_frame_effects :
    (∀ (st st' : Ledger) (o : BuyOrder) (p : ℚ), Inv st →
        apply_buy o p st = .ok st' →
          st'.next_id = st.next_id + 1 ∧
          st'.holdings =
            (st.holdings.map (fun x =>
              if x.asset == Asset.usd
              then { x with amount := x.amount - o.amount * p } else x))
            ++ [{ holding_id := mintId st.next_id, asset := .btc,
                  amount := o.amount, stop_loss := o.stop_loss,
                  take_profit := o.take_profit }])
    ∧ (∀ (st st' : Ledger) (o : SellOrder) (p : ℚ), Inv st →
        apply_sell o p st = .ok st' →
          st'.next_id = st.next_id ∧
          ∃ target, find_holding o.holding_id st.holdings = some target
            ∧ target.asset = Asset.btc
            ∧ st'.holdings =
              (if target.amount - o.amount ≤ eps
               then (st.holdings.map (fun x =>
                   if x.holding_id == o.holding_id
                   then { x with amount := x.amount - o.amount }
                   else if x.asset == Asset.usd
                   then { x with amount := x.amount + o.amount * p } else x)).filter
                 (fun x => !(x.holding_id == o.holding_id))
               else st.holdings.map (fun x =>
                   if x.holding_id == o.holding_id
                   then { x with amount := x.amount - o.amount }
                   else if x.asset == Asset.usd
                   then { x with amount := x.amount + o.amount * p } else x)))
    ∧ (∀ (st st'' : Ledger) (o : BuyOrder) (p : ℚ) (m : String),
        apply_buy o p st = .error (m, st'') → st'' = st)
    ∧ (∀ (st st'' : Ledger) (o : SellOrder) (p : ℚ) (m : String),
        (∃ u ∈ st.holdings, u.asset = Asset.usd) →
        apply_sell o p st = .error (m, st'') → st'' = st) := by
  refine ⟨?_, ?_, ?_, ?_⟩
  · intro st st' o p hInv hok
    obtain ⟨hamt, u, husd, hcost⟩ := apply_buy_ok_inversion st st' o p hok
    have hchar := apply_buy_char st o p u hInv.toWInv hamt husd hcost
    rw [hok] at hchar
    injection hchar with h'
    subst h'
    exact ⟨rfl, rfl⟩
  · intro st st' o p hInv hok
    obtain ⟨hamt, hne, target, hfind, hasset, hle⟩ :=
      apply_sell_ok_inversion st st' o p hok
    have hchar := apply_sell_char st o p target hInv.toWInv hamt hne hfind hasset hle
    rw [hok] at hchar
    injection hchar with h'
    subst h'
    exact ⟨rfl, target, hfind, hasset, rfl⟩
  · intro st st'' o p m h
    exact apply_buy_error_state st st'' o p m h
  · intro st st'' o p m husd h
    exact apply_sell_error_state st st'' o p m husd h

/-- Concrete instance for C9: buying 1 BTC at 100 from the reset ledger
gives exactly the decremented USD holding plus the new `H1` holding. -/
theorem c9_frame_effects_witness :
    ({ holdings :=
         (reset_portfolio.holdings.map (fun x =>
           if x.asset == Asset.usd
           then { x with amount := x.amount - (1 : ℚ) * 100 } else x))
         ++ [{ holding_id := mintId reset_portfolio.next_id, asset := .btc,
               amount := 1, stop_loss := none, take_profit := none }],
       next_id := reset_portfolio.next_id + 1 } : Ledger).next_id
      = reset_portfolio.next_id + 1
    ∧ ({ holdings :=
           (reset_portfolio.holdings.map (fun x =>
             if x.asset == Asset.usd
             then { x with amount := x.amount - (1 : ℚ) * 100 } else x))
           ++ [{ holding_id := mintId reset_portfolio.next_id, asset := .btc,
                 amount := 1, stop_loss := none, take_profit := none }],
         next_id := reset_portfolio.next_id + 1 } : Ledger).holdings =
        (reset_portfolio.holdings.map (fun x =>
          if x.asset == Asset.usd
          then { x with amount := x.amount - (1 : ℚ) * 100 } else x))
        ++ [{ holding_id := mintId reset_portfolio.next_id, asset := .btc,
              amount := 1, stop_loss := none, take_profit := none }] :=
  c9_frame_effects.1 reset_portfolio
    { holdings :=
        (reset_portfolio.holdings.map (fun x =>
          if x.asset == Asset.usd
          then { x with amount := x.amount - (1 : ℚ) * 100 } else x))
        ++ [{ holding_id := mintId reset_portfolio.next_id, asset := .btc,
              amount := 1, stop_loss := none, take_profit := none }],
      next_id := reset_portfolio.next_id + 1 }
    { amount := 1 } 100 Inv_reset
    (apply_buy_char reset_portfolio { amount := 1 } 100
      { holding_id := "USD", asset := .usd, amount := 10000 }
      Inv_reset.toWInv (by norm_num) rfl (by norm_num [eps]))

/-! ### Full-amount sells (SL/TP enforcement steps) -/

theorem usd_unique (l : List HoldingState)
    (hnd : (l.map (fun h => h.holding_id)).Nodup)
    (hids : ∀ h ∈ l, h.asset = Asset.usd → h.holding_id = USD_HOLDING_ID)
    (x u : HoldingState) (hx : x ∈ l) (hu : u ∈ l)
    (hxa : x.asset = Asset.usd) (hua : u.asset = Asset.usd) : x = u := by
  by_contra hneq
  have hinj := List.inj_on_of_nodup_map hnd
  exact hneq (hinj hx hu (by rw [hids x hx hxa, hids u hu hua]))

theorem id_unique (l : List HoldingState)
    (hnd : (l.map (fun h => h.holding_id)).Nodup)
    (x y : HoldingState) (hx : x ∈ l) (hy : y ∈ l)
    (heq : x.holding_id = y.holding_id) : x = y :=
  List.inj_on_of_nodup_map hnd hx hy heq

theorem apply_sell_full (st : Ledger) (g : HoldingState) (price : ℚ)
    (hw : WInv st)
    (hfind : find_holding g.holding_id st.holdings = some g)
    (hasset : g.asset = Asset.btc)
    (hamt : 0 < g.amount)
    (hne : g.holding_id ≠ USD_HOLDING_ID) :
    apply_sell { holding_id := g.holding_id, amount := g.amount } price st
      = .ok (sellFullResult g.holding_id g.amount price st) := by
  have hchar := apply_sell_char st { holding_id := g.holding_id, amount := g.amount }
    price g hw hamt hne hfind hasset (by linarith [eps_pos])
  rw [hchar]
  congr 1
  unfold sellFullResult
  congr 1
  rw [if_pos (show g.amount -
      ({ holding_id := g.holding_id, amount := g.amount } : SellOrder).amount
        ≤ eps by dsimp only; rw [sub_self]; exact le_of_lt eps_pos)]

theorem sellFullResult_fun_id (hid : String) (amt price : ℚ) :
    ∀ x : HoldingState,
      ((fun x => if x.holding_id == hid then { x with amount := x.amount - amt }
        else if x.asset == Asset.usd
        then { x with amount := x.amount + amt * price } else x) x).holding_id
        = x.holding_id := by
  intro x
  by_cases h1 : x.holding_id = hid
  · simp [h1]
  · by_cases h2 : x.asset = Asset.usd <;> simp [h1, h2]

theorem sellFullResult_fun_asset (hid : String) (amt price : ℚ) :
    ∀ x : HoldingState,
      ((fun x => if x.holding_id == hid then { x with amount := x.amount - amt }
        else if x.asset == Asset.usd
        then { x with amount := x.amount + amt * price } else x) x).asset
        = x.asset := by
  intro x
  by_cases h1 : x.holding_id = hid
  · simp [h1]
  · by_cases h2 : x.asset = Asset.usd <;> simp [h1, h2]

theorem sellFullResult_mem (hid : String) (amt price : ℚ) (st : Ledger)
    (h : HoldingState) (hm : h ∈ (sellFullResult hid amt price st).holdings) :
    ∃ x ∈ st.holdings, ¬ x.holding_id = hid
      ∧ h = (if x.asset == Asset.usd
          then { x with amount := x.amount + amt * price } else x) := by
  unfold sellFullResult at hm
  rcases List.mem_filter.mp hm with ⟨hmap, hkeep⟩
  rcases List.mem_map.mp hmap with ⟨x, hx, rfl⟩
  have hxid : ¬ x.holding_id = hid := by
    intro hxe
    rw [if_pos (beq_iff_eq.mpr hxe)] at hkeep
    simp [hxe] at hkeep
  refine ⟨x, hx, hxid, ?_⟩
  rw [if_neg (by simpa using hxid)]

theorem sellFullResult_ids_nodup (hid : String) (amt price : ℚ) (st : Ledger)
    (hw : WInv st) :
    ((sellFullResult hid amt price st).holdings.map
      (fun h => h.holding_id)).Nodup := by
  unfold sellFullResult
  dsimp only
  have hids : ((st.holdings.map (fun x =>
      if x.holding_id == hid then { x with amount := x.amount - amt }
      else if x.asset == Asset.usd
      then { x with amount := x.amount + amt * price } else x)).map
        (fun h => h.holding_id)).Nodup := by
    rw [map_holding_id_map _ (sellFullResult_fun_id hid amt price)]
    exact hw.ids_nodup
  exact List.Nodup.sublist
    (List.Sublist.map (fun h : HoldingState => h.holding_id)
      (List.filter_sublist _)) hids

theorem sellFullResult_WInv (hid : String) (amt price : ℚ) (st : Ledger)
    (hw : WInv st) (hne : hid ≠ USD_HOLDING_ID) :
    WInv (sellFullResult hid amt price st) := by
  refine ⟨?_, ?_, ?_, ?_⟩
  · obtain ⟨u, hu, husd⟩ := hw.usd_exists
    have huid : u.holding_id = USD_HOLDING_ID := hw.usd_id u hu husd
    have hunotid : ¬ u.holding_id = hid := by rw [huid]; exact fun he => hne he.symm
    refine ⟨{ u with amount := u.amount + amt * price }, ?_, husd⟩
    unfold sellFullResult
    refine List.mem_filter.mpr ⟨?_, by simp [hunotid]⟩
    have himg : (fun x => if x.holding_id == hid
        then { x with amount := x.amount - amt }
        else if x.asset == Asset.usd
        then { x with amount := x.amount + amt * price } else x) u
        = { u with amount := u.amount + amt * price } := by
      dsimp only
      rw [if_neg (by simpa using hunotid), if_pos (beq_iff_eq.mpr husd)]
    exact himg ▸ List.mem_map_of_mem _ hu
  · intro h hm hasset
    obtain ⟨x, hx, hxid, hform⟩ := sellFullResult_mem hid amt price st h hm
    by_cases hxusd : x.asset = Asset.usd
    · rw [hform, if_pos (beq_iff_eq.mpr hxusd)]
      exact hw.usd_id x hx hxusd
    · rw [hform, if_neg (by simpa using hxusd)] at hasset ⊢
      exact hw.usd_id x hx hasset
  · exact sellFullResult_ids_nodup hid amt price st hw
  · intro h hm hasset
    obtain ⟨x, hx, hxid, hform⟩ := sellFullResult_mem hid amt price st h hm
    have hhid : h.holding_id = x.holding_id := by
      rw [hform]
      by_cases hxusd : x.asset = Asset.usd <;> simp [hxusd]
    have hha : h.asset = x.asset := by
      rw [hform]
      by_cases hxusd : x.asset = Asset.usd <;> simp [hxusd]
    obtain ⟨k, hk1, hk2, hk3⟩ := hw.btc_ids x hx (by rw [← hha]; exact hasset)
    exact ⟨k, hk1, hk2, by rw [hhid]; exact hk3⟩

theorem sellFullResult_find_self (hid : String) (amt price : ℚ) (st : Ledger) :
    find_holding hid (sellFullResult hid amt price st).holdings = none := by
  rw [find_holding_none_iff]
  intro g hm
  obtain ⟨x, hx, hxid, hform⟩ := sellFullResult_mem hid amt price st g hm
  have : g.holding_id = x.holding_id := by
    rw [hform]
    by_cases hxusd : x.asset = Asset.usd <;> simp [hxusd]
  rw [this]
  exact hxid

theorem sellFullResult_find_none (hid hid' : String) (amt price : ℚ) (st : Ledger)
    (h : find_holding hid' st.holdings = none) :
    find_holding hid' (sellFullResult hid amt price st).holdings = none := by
  rw [find_holding_none_iff] at h ⊢
  intro g hm
  obtain ⟨x, hx, hxid, hform⟩ := sellFullResult_mem hid amt price st g hm
  have : g.holding_id = x.holding_id := by
    rw [hform]
    by_cases hxusd : x.asset = Asset.usd <;> simp [hxusd]
  rw [this]
  exact h x hx

theorem sellFullResult_find_other (hid : String) (amt price : ℚ) (st : Ledger)
    (hw : WInv st)
    (g' : HoldingState) (hbtc : g'.asset = Asset.btc)
    (hne : g'.holding_id ≠ hid)
    (hfind : find_holding g'.holding_id st.holdings = some g') :
    find_holding g'.holding_id (sellFullResult hid amt price st).holdings
      = some g' := by
  obtain ⟨hg'mem, -⟩ := find_holding_mem hfind
  have hmem' : g' ∈ (sellFullResult hid amt price st).holdings := by
    unfold sellFullResult
    refine List.mem_filter.mpr ⟨?_, by simp [hne]⟩
    have himg : (fun x => if x.holding_id == hid
        then { x with amount := x.amount - amt }
        else if x.asset == Asset.usd
        then { x with amount := x.amount + amt * price } else x) g' = g' := by
      dsimp only
      rw [if_neg (by simpa using hne), if_neg (by simp [hbtc])]
    exact himg ▸ List.mem_map_of_mem _ hg'mem
  exact find_holding_eq_of_mem g' _ hmem'
    (sellFullResult_ids_nodup hid amt price st hw)

theorem sellFullResult_amounts (hid : String) (amt price : ℚ) (st : Ledger)
    (hamounts : ∀ h ∈ st.holdings, -eps ≤ h.amount)
    (hnonneg : 0 ≤ amt * price) :
    ∀ h ∈ (sellFullResult hid amt price st).holdings, -eps ≤ h.amount := by
  intro h hm
  obtain ⟨x, hx, hxid, hform⟩ := sellFullResult_mem hid amt price st h hm
  by_cases hxusd : x.asset = Asset.usd
  · rw [hform, if_pos (beq_iff_eq.mpr hxusd)]
    have := hamounts x hx
    simp only []
    linarith
  · rw [hform, if_neg (by simpa using hxusd)]
    exact hamounts x hx

theorem tpStep_spec (high : ℚ) (g : HoldingState) (st : Ledger)
    (hw : WInv st)
    (hbtc : g.asset = Asset.btc) (hamt : eps < g.amount)
    (hne : g.holding_id ≠ USD_HOLDING_ID)
    (hfind : find_holding g.holding_id st.holdings = some g
        ∨ find_holding g.holding_id st.holdings = none) :
    ∃ st' evs, tpStep high g st = .ok (st', evs)
      ∧ WInv st' ∧ st'.next_id = st.next_id
      ∧ (∀ hid', find_holding hid' st.holdings = none →
            find_holding hid' st'.holdings = none)
      ∧ (∀ g', g'.asset = Asset.btc → g'.holding_id ≠ g.holding_id →
            find_holding g'.holding_id st.holdings = some g' →
            find_holding g'.holding_id st'.holdings = some g')
      ∧ (∀ ev ∈ evs, ev.holding_id = g.holding_id)
      ∧ ((∀ h ∈ st.holdings, -eps ≤ h.amount) →
            (∀ t, g.take_profit = some t → 0 ≤ t) →
            ∀ h ∈ st'.holdings, -eps ≤ h.amount) := by
  unfold tpStep
  rcases hfind with hsome | hnone
  · rw [hsome]
    simp only [Option.isNone_some, Bool.false_eq_true, if_false]
    cases htp : g.take_profit with
    | none =>
      exact ⟨st, [], rfl, hw, rfl, fun _ h => h, fun _ _ _ hf => hf,
        by simp, fun ha _ => ha⟩
    | some t =>
      dsimp only
      by_cases hhigh : t ≤ high
      · rw [if_pos hhigh,
          apply_sell_full st g t hw hsome hbtc (lt_trans eps_pos hamt) hne]
        refine ⟨sellFullResult g.holding_id g.amount t st,
          [⟨g.holding_id, g.amount, t⟩], rfl,
          sellFullResult_WInv _ _ _ _ hw hne, rfl,
          fun hid' h => sellFullResult_find_none _ hid' _ _ _ h,
          fun g' hb hne' hf => sellFullResult_find_other _ _ _ _ hw g' hb hne' hf,
          by simp, ?_⟩
        intro ha htp0
        exact sellFullResult_amounts _ _ _ _ ha
          (mul_nonneg (le_of_lt (lt_trans eps_pos hamt)) (htp0 t rfl))
      · rw [if_neg hhigh]
        exact ⟨st, [], rfl, hw, rfl, fun _ h => h, fun _ _ _ hf => hf,
          by simp, fun ha _ => ha⟩
  · rw [hnone]
    simp only [Option.isNone_none, if_true]
    exact ⟨st, [], rfl, hw, rfl, fun _ h => h, fun _ _ _ hf => hf,
      by simp, fun ha _ => ha⟩

theorem closeStep_spec (low high : ℚ) (g : HoldingState) (st : Ledger)
    (hw : WInv st)
    (hbtc : g.asset = Asset.btc) (hamt : eps < g.amount)
    (hne : g.holding_id ≠ USD_HOLDING_ID)
    (hfind : find_holding g.holding_id st.holdings = some g
        ∨ find_holding g.holding_id st.holdings = none) :
    ∃ st' evs, closeStep low high g st = .ok (st', evs)
      ∧ WInv st' ∧ st'.next_id = st.next_id
      ∧ (∀ hid', find_holding hid' st.holdings = none →
            find_holding hid' st'.holdings = none)
      ∧ (∀ g', g'.asset = Asset.btc → g'.holding_id ≠ g.holding_id →
            find_holding g'.holding_id st.holdings = some g' →
            find_holding g'.holding_id st'.holdings = some g')
      ∧ (∀ ev ∈ evs, ev.holding_id = g.holding_id)
      ∧ (∀ s, g.stop_loss = some s → low ≤ s →
            find_holding g.holding_id st.holdings = some g →
            evs = [⟨g.holding_id, g.amount, s⟩]
              ∧ find_holding g.holding_id st'.holdings = none)
      ∧ ((∀ h ∈ st.holdings, -eps ≤ h.amount) → 0 ≤ low →
            (∀ t, g.take_profit = some t → 0 ≤ t) →
            ∀ h ∈ st'.holdings, -eps ≤ h.amount) := by
  unfold closeStep
  rcases hfind with hsome | hnone
  · rw [hsome]
    simp only [Option.isNone_some, Bool.false_eq_true, if_false]
    cases hsl : g.stop_loss with
    | none =>
      obtain ⟨st', evs, heq, hw', hnext, hn, ho, hev, ham⟩ :=
        tpStep_spec high g st hw hbtc hamt hne (Or.inl hsome)
      refine ⟨st', evs, heq, hw', hnext, hn, ho, hev, ?_, ?_⟩
      · intro s hs
        cases hs
      · intro ha _ htp0
        exact ham ha htp0
    | some s =>
      dsimp only
      by_cases hlow : low ≤ s
      · rw [if_pos hlow,
          apply_sell_full st g s hw hsome hbtc (lt_trans eps_pos hamt) hne]
        refine ⟨sellFullResult g.holding_id g.amount s st,
          [⟨g.holding_id, g.amount, s⟩], rfl,
          sellFullResult_WInv _ _ _ _ hw hne, rfl,
          fun hid' h => sellFullResult_find_none _ hid' _ _ _ h,
          fun g' hb hne' hf => sellFullResult_find_other _ _ _ _ hw g' hb hne' hf,
          by simp, ?_, ?_⟩
        · intro s' hs' _ _
          injection hs' with hss
          subst hss
          exact ⟨rfl, sellFullResult_find_self _ _ _ _⟩
        · intro ha hlow0 _
          exact sellFullResult_amounts _ _ _ _ ha
            (mul_nonneg (le_of_lt (lt_trans eps_pos hamt))
              (le_trans hlow0 hlow))
      · rw [if_neg hlow]
        obtain ⟨st', evs, heq, hw', hnext, hn, ho, hev, ham⟩ :=
          tpStep_spec high g st hw hbtc hamt hne (Or.inl hsome)
        refine ⟨st', evs, heq, hw', hnext, hn, ho, hev, ?_, ?_⟩
        · intro s' hs' hlow' _
          injection hs' with hss
          subst hss
          exact absurd hlow' hlow
        · intro ha _ htp0
          exact ham ha htp0
  · rw [hnone]
    simp only [Option.isNone_none, if_true]
    refine ⟨st, [], rfl, hw, rfl, fun _ h => h, fun _ _ _ hf => hf,
      by simp, ?_, fun ha _ _ => ha⟩
    intro s _ _ hfind2
    cases hfind2

theorem closeAll_spec (low high : ℚ) :
    ∀ (snap : List HoldingState) (st : Ledger),
      WInv st →
      (snap.map (fun h => h.holding_id)).Nodup →
      (∀ g ∈ snap, g.asset = Asset.btc ∧ eps < g.amount
        ∧ g.holding_id ≠ USD_HOLDING_ID
        ∧ (find_holding g.holding_id st.holdings = some g
            ∨ find_holding g.holding_id st.holdings = none)) →
      ∃ st' evs, closeAll low high snap st = .ok (st', evs)
        ∧ WInv st' ∧ st'.next_id = st.next_id
        ∧ (∀ hid', find_holding hid' st.holdings = none →
              find_holding hid' st'.holdings = none)
        ∧ (∀ ev ∈ evs, ∃ g ∈ snap, ev.holding_id = g.holding_id)
        ∧ (∀ g ∈ snap, ∀ s, g.stop_loss = some s → low ≤ s →
              find_holding g.holding_id st.holdings = some g →
              (⟨g.holding_id, g.amount, s⟩ : SellEvent) ∈ evs
                ∧ find_holding g.holding_id st'.holdings = none
                ∧ (∀ ev ∈ evs, ev.holding_id = g.holding_id →
                    ev = ⟨g.holding_id, g.amount, s⟩))
        ∧ ((∀ h ∈ st.holdings, -eps ≤ h.amount) → 0 ≤ low →
              (∀ g ∈ snap, ∀ t, g.take_profit = some t → 0 ≤ t) →
              ∀ h ∈ st'.holdings, -eps ≤ h.amount) := by
  intro snap
  induction snap with
  | nil =>
    intro st hw _ _
    exact ⟨st, [], rfl, hw, rfl, fun _ h => h, by simp, by simp,
      fun ha _ _ => ha⟩
  | cons a rest ih =>
    intro st hw hnd hfacts
    rw [List.map_cons, List.nodup_cons] at hnd
    obtain ⟨hna, hndrest⟩ := hnd
    obtain ⟨habtc, haamt, hane, hafind⟩ := hfacts a (List.mem_cons_self a rest)
    obtain ⟨st1, evsa, hstep, hw1, hnext1, hnone1, hother1, hevids1, hsl1, ham1⟩ :=
      closeStep_spec low high a st hw habtc haamt hane hafind
    have hfacts1 : ∀ g ∈ rest, g.asset = Asset.btc ∧ eps < g.amount
        ∧ g.holding_id ≠ USD_HOLDING_ID
        ∧ (find_holding g.holding_id st1.holdings = some g
            ∨ find_holding g.holding_id st1.holdings = none) := by
      intro g hg
      obtain ⟨hb, hm, hn, hf⟩ := hfacts g (List.mem_cons_of_mem a hg)
      have hgne : g.holding_id ≠ a.holding_id := by
        intro he
        exact hna (he ▸ mem_map_holding_id hg)
      refine ⟨hb, hm, hn, ?_⟩
      rcases hf with hf | hf
      · exact Or.inl (hother1 g hb hgne hf)
      · exact Or.inr (hnone1 _ hf)
    obtain ⟨st2, evsr, hall, hw2, hnext2, hnone2, hevorig2, hsl2, ham2⟩ :=
      ih st1 hw1 hndrest hfacts1
    refine ⟨st2, evsa ++ evsr, ?_, hw2, by rw [hnext2, hnext1],
      fun hid' h => hnone2 hid' (hnone1 hid' h), ?_, ?_, ?_⟩
    · show closeAll low high (a :: rest) st = .ok (st2, evsa ++ evsr)
      unfold closeAll
      rw [hstep]
      dsimp only
      rw [hall]
    · intro ev hev
      rcases List.mem_append.mp hev with hl | hr
      · exact ⟨a, List.mem_cons_self a rest, hevids1 ev hl⟩
      · obtain ⟨g, hg, hgid⟩ := hevorig2 ev hr
        exact ⟨g, List.mem_cons_of_mem a hg, hgid⟩
    · intro g hg s hgsl hglow hgfind
      rcases List.mem_cons.mp hg with rfl | hgrest
      · obtain ⟨hevsa, hgone⟩ := hsl1 s hgsl hglow hgfind
        refine ⟨List.mem_append_left _ (by rw [hevsa]; exact List.mem_singleton.mpr rfl),
          hnone2 _ hgone, ?_⟩
        intro ev hev hevid
        rcases List.mem_append.mp hev with hl | hr
        · rw [hevsa] at hl
          exact List.mem_singleton.mp hl
        · obtain ⟨g', hg', hgid'⟩ := hevorig2 ev hr
          have heq : g.holding_id = g'.holding_id := by rw [← hevid, hgid']
          exact absurd (show g.holding_id ∈ rest.map (fun h => h.holding_id) by
            rw [heq]; exact mem_map_holding_id hg') hna
      · have hgne : g.holding_id ≠ a.holding_id := by
          intro he
          exact hna (he ▸ mem_map_holding_id hgrest)
        have hgfind1 : find_holding g.holding_id st1.holdings = some g :=
          hother1 g (hfacts g (List.mem_cons_of_mem a hgrest)).1 hgne hgfind
        obtain ⟨hmem2, hgone2, huniq2⟩ := hsl2 g hgrest s hgsl hglow hgfind1
        refine ⟨List.mem_append_right _ hmem2, hgone2, ?_⟩
        intro ev hev hevid
        rcases List.mem_append.mp hev with hl | hr
        · exact absurd (hevids1 ev hl) (hevid ▸ hgne)
        · exact huniq2 ev hr hevid
    · intro ha hlow0 htp0
      exact ham2 (ham1 ha hlow0 (htp0 a (List.mem_cons_self a rest))) hlow0
        (fun g hg => htp0 g (List.mem_cons_of_mem a hg))

theorem auto_close_spec (low high : ℚ) (st : Ledger) (hw : WInv st) :
    ∃ st' evs, auto_close low high st = .ok (st', evs)
      ∧ WInv st' ∧ st'.next_id = st.next_id
      ∧ (∀ g ∈ st.holdings, g.asset = Asset.btc → eps < g.amount →
          ∀ s, g.stop_loss = some s → low ≤ s →
            (⟨g.holding_id, g.amount, s⟩ : SellEvent) ∈ evs
              ∧ find_holding g.holding_id st'.holdings = none
              ∧ (∀ ev ∈ evs, ev.holding_id = g.holding_id →
                  ev = ⟨g.holding_id, g.amount, s⟩))
      ∧ ((∀ h ∈ st.holdings, -eps ≤ h.amount) → 0 ≤ low →
            (∀ g ∈ st.holdings, ∀ t, g.take_profit = some t → 0 ≤ t) →
            ∀ h ∈ st'.holdings, -eps ≤ h.amount) := by
  have hnd : ((st.holdings.filter
      (fun h => h.asset == Asset.btc && decide (eps < h.amount))).map
        (fun h => h.holding_id)).Nodup :=
    List.Nodup.sublist
      (List.Sublist.map (fun h : HoldingState => h.holding_id)
        (List.filter_sublist _)) hw.ids_nodup
  have hfacts : ∀ g ∈ st.holdings.filter
      (fun h => h.asset == Asset.btc && decide (eps < h.amount)),
      g.asset = Asset.btc ∧ eps < g.amount
        ∧ g.holding_id ≠ USD_HOLDING_ID
        ∧ (find_holding g.holding_id st.holdings = some g
            ∨ find_holding g.holding_id st.holdings = none) := by
    intro g hg
    rcases List.mem_filter.mp hg with ⟨hgmem, hgp⟩
    rw [Bool.and_eq_true] at hgp
    obtain ⟨hb, ha⟩ := hgp
    have hbtc : g.asset = Asset.btc := beq_iff_eq.mp hb
    have hamt : eps < g.amount := of_decide_eq_true ha
    obtain ⟨k, -, -, hk⟩ := hw.btc_ids g hgmem hbtc
    exact ⟨hbtc, hamt, hk ▸ mintId_ne_usd k,
      Or.inl (find_holding_eq_of_mem g _ hgmem hw.ids_nodup)⟩
  obtain ⟨st', evs, heq, hw', hnext, hnone, hevorig, hsl, ham⟩ :=
    closeAll_spec low high
      (st.holdings.filter (fun h => h.asset == Asset.btc && decide (eps < h.amount)))
      st hw hnd hfacts
  refine ⟨st', evs, heq, hw', hnext, ?_, ?_⟩
  · intro g hgmem hbtc hamt s hgsl hglow
    have hgsnap : g ∈ st.holdings.filter
        (fun h => h.asset == Asset.btc && decide (eps < h.amount)) :=
      List.mem_filter.mpr ⟨hgmem, by
        rw [Bool.and_eq_true]
        exact ⟨beq_iff_eq.mpr hbtc, decide_eq_true hamt⟩⟩
    exact hsl g hgsnap s hgsl hglow
      (find_holding_eq_of_mem g _ hgmem hw.ids_nodup)
  · intro ha hlow htp0
    refine ham ha hlow ?_
    intro g hg t hgt
    rcases List.mem_filter.mp hg with ⟨hgmem, -⟩
    exact htp0 g hgmem t hgt

theorem Inv_sampleSlState : Inv sampleSlState := by
  refine ⟨⟨?_, ?_, ?_, ?_⟩, ?_, ?_⟩
  · exact ⟨{ holding_id := "USD", asset := .usd, amount := 100 },
      List.mem_cons_self _ _, rfl⟩
  · intro h hm ha
    rcases List.mem_cons.mp hm with rfl | hm2
    · rfl
    · rcases List.mem_cons.mp hm2 with rfl | hm3
      · exact absurd ha (by decide)
      · cases hm3
  · decide
  · intro h hm hb
    rcases List.mem_cons.mp hm with rfl | hm2
    · exact absurd hb (by decide)
    · rcases List.mem_cons.mp hm2 with rfl | hm3
      · exact ⟨1, le_refl 1, by decide, rfl⟩
      · cases hm3
  · intro h hm
    rcases List.mem_cons.mp hm with rfl | hm2
    · norm_num [eps]
    · rcases List.mem_cons.mp hm2 with rfl | hm3
      · norm_num [slTpHolding, eps]
      · cases hm3
  · exact one_le_two

/-- C5: if an open BTC holding carries both thresholds and the day row
satisfies both (`low ≤ s` and `t ≤ high`), the SL/TP enforcement pass
completes, sells that holding in full at the stop-loss price `s`, closes
it, and records no other sale for it — in particular no take-profit sale. -/
theorem c5_sl_before_tp (st : Ledger) (low high s t : ℚ) (g : HoldingState)
    (hInv : Inv st) (hmem : g ∈ st.holdings) (hbtc : g.asset = Asset.btc)
    (hamt : eps < g.amount) (hsl : g.stop_loss = some s)
    (htp : g.take_profit = some t) (hlow : low ≤ s) (hhigh : t ≤ high) :
    ∃ st' evs, auto_close low high st = .ok (st', evs)
      ∧ (⟨g.holding_id, g.amount, s⟩ : SellEvent) ∈ evs
      ∧ (∀ ev ∈ evs, ev.holding_id = g.holding_id →
          ev = ⟨g.holding_id, g.amount, s⟩)
      ∧ (∀ h' ∈ st'.holdings, h'.holding_id ≠ g.holding_id) := by
  obtain ⟨st', evs, heq, hw', hnext, hslmain, ham⟩ :=
    auto_close_spec low high st hInv.toWInv
  obtain ⟨hevmem, hgone, huniq⟩ := hslmain g hmem hbtc hamt s hsl hlow
  exact ⟨st', evs, heq, hevmem, huniq,
    (find_holding_none_iff g.holding_id st'.holdings).mp hgone⟩

/-- Concrete instance for C5: a holding with SL 95 and TP 105 on a day
with low 94 and high 106 is sold at 95 (only), and closed. -/
theorem c5_sl_before_tp_witness :
    ∃ st' evs, auto_close 94 106 sampleSlState = .ok (st', evs)
      ∧ (⟨"H1", 1, 95⟩ : SellEvent) ∈ evs
      ∧ (∀ ev ∈ evs, ev.holding_id = "H1" → ev = ⟨"H1", 1, 95⟩)
      ∧ (∀ h' ∈ st'.holdings, h'.holding_id ≠ "H1") :=
  c5_sl_before_tp sampleSlState 94 106 95 105 slTpHolding Inv_sampleSlState
    (List.mem_cons_of_mem _ (List.mem_cons_self _ _)) rfl
    (by norm_num [slTpHolding, eps]) rfl rfl (by norm_num) (by norm_num)

theorem Inv_sampleNegTpState : Inv sampleNegTpState := by
  refine ⟨⟨?_, ?_, ?_, ?_⟩, ?_, ?_⟩
  · exact ⟨{ holding_id := "USD", asset := .usd, amount := 0 },
      List.mem_cons_self _ _, rfl⟩
  · intro h hm ha
    rcases List.mem_cons.mp hm with rfl | hm2
    · rfl
    · rcases List.mem_cons.mp hm2 with rfl | hm3
      · exact absurd ha (by decide)
      · cases hm3
  · decide
  · intro h hm hb
    rcases List.mem_cons.mp hm with rfl | hm2
    · exact absurd hb (by decide)
    · rcases List.mem_cons.mp hm2 with rfl | hm3
      · exact ⟨1, le_refl 1, by decide, rfl⟩
      · cases hm3
  · intro h hm
    rcases List.mem_cons.mp hm with rfl | hm2
    · norm_num [eps]
    · rcases List.mem_cons.mp hm2 with rfl | hm3
      · norm_num [negTpHolding, eps]
      · cases hm3
  · exact one_le_two

theorem buy_reaches_negTp :
    apply_buy { amount := 50, take_profit := some (-100) } 200 reset_portfolio
      = .ok sampleNegTpState := by
  have hbuy := apply_buy_char reset_portfolio
    { amount := 50, take_profit := some (-100) } 200
    { holding_id := USD_HOLDING_ID, asset := .usd,
      amount := INITIAL_PORTFOLIO_USD }
    Inv_reset.toWInv (by norm_num) rfl
    (by norm_num [eps, INITIAL_PORTFOLIO_USD])
  rw [hbuy]
  congr 1
  unfold sampleNegTpState negTpHolding reset_portfolio
  simp only [List.map_cons, List.map_nil, List.cons_append, List.nil_append,
    show mintId 1 = "H1" from rfl]
  norm_num [USD_HOLDING_ID, INITIAL_PORTFOLIO_USD]

theorem auto_close_negTp :
    auto_close 150 250 sampleNegTpState
      = .ok (sellFullResult "H1" 50 (-100) sampleNegTpState,
             [⟨"H1", 50, -100⟩]) := by
  have hsnap : sampleNegTpState.holdings.filter
      (fun h => h.asset == Asset.btc && decide (eps < h.amount))
        = [negTpHolding] := by
    have h50 : decide (eps < negTpHolding.amount) = true :=
      decide_eq_true (by norm_num [negTpHolding, eps])
    have hc1 : (({ holding_id := "USD", asset := .usd, amount := 0 }
        : HoldingState).asset == Asset.btc) = false := rfl
    have hc2 : (negTpHolding.asset == Asset.btc) = true := rfl
    simp only [sampleNegTpState, List.filter_cons, List.filter_nil, hc1, hc2,
      h50, Bool.false_and, Bool.true_and, Bool.false_eq_true, if_false, if_true]
  have hfind : find_holding negTpHolding.holding_id sampleNegTpState.holdings
      = some negTpHolding := rfl
  have hsell := apply_sell_full sampleNegTpState negTpHolding (-100)
    Inv_sampleNegTpState.toWInv hfind rfl (by norm_num [negTpHolding])
    (by decide)
  have hstep : closeStep 150 250 negTpHolding sampleNegTpState
      = (apply_sell { holding_id := negTpHolding.holding_id,
                      amount := negTpHolding.amount } (-100)
          sampleNegTpState).map
          (fun st' =>
            (st', [⟨negTpHolding.holding_id, negTpHolding.amount, -100⟩])) := by
    unfold closeStep tpStep
    rw [hfind]
    simp only [Option.isNone_some, Bool.false_eq_true, if_false]
    rw [show negTpHolding.stop_loss = none from rfl,
        show negTpHolding.take_profit = some (-100) from rfl]
    dsimp only
    rw [if_pos (show (-100 : ℚ) ≤ 250 by norm_num)]
  unfold auto_close
  rw [hsnap]
  unfold closeAll
  rw [hstep, hsell]
  dsimp only [Except.map]
  rfl

/-- C6 counterexample: structural validation does not constrain SL/TP
signs, so from the reset ledger a BUY of 50 BTC at open 200 with
`take_profit = -100` reaches an invariant-respecting state; the next
enforcement pass (low 150, high 250) "sells" the position at the negative
take-profit, leaving the USD holding at −5000, far below −ε.  The claimed
non-negativity is not preserved by SL/TP enforcement. -/
theorem c6_counterexample_negative_tp :
    apply_buy { amount := 50, take_profit := some (-100) } 200 reset_portfolio
      = .ok sampleNegTpState
    ∧ Inv sampleNegTpState
    ∧ ∃ st', auto_close 150 250 sampleNegTpState
        = .ok (st', [⟨"H1", 50, -100⟩])
      ∧ usdAmount st' < -eps
      ∧ ∃ u ∈ st'.holdings, u.asset = Asset.usd ∧ u.amount < -eps := by
  refine ⟨buy_reaches_negTp, Inv_sampleNegTpState,
    sellFullResult "H1" 50 (-100) sampleNegTpState, auto_close_negTp, ?_, ?_⟩
  · rw [show usdAmount (sellFullResult "H1" 50 (-100) sampleNegTpState)
        = 0 + 50 * (-100) from rfl]
    norm_num [eps]
  · refine ⟨{ holding_id := "USD", asset := .usd, amount := 0 + 50 * (-100) }, ?_, rfl, ?_⟩
    · rw [show (sellFullResult "H1" 50 (-100) sampleNegTpState).holdings
          = [{ holding_id := "USD", asset := .usd,
               amount := 0 + 50 * (-100) }] from rfl]
      exact List.mem_singleton.mpr rfl
    · norm_num [eps]

/-- C6 (amended): the bookkeeping invariant — exactly one USD holding,
carrying id `"USD"`; pairwise-distinct ids with BTC ids minted as
`H1, H2, …` in allocation order; amounts not below −ε — holds after reset
and is preserved by successful buys (which append the freshly minted
holding and advance the counter) and by successful sells at a nonnegative
execution price; SL/TP enforcement preserves it provided the day's low and
every set take-profit are nonnegative.  (Without those sign provisos the
non-negativity part fails: see the counterexample.) -/
theorem c6_ledger_invariant :
    Inv reset_portfolio
    ∧ (∀ st : Ledger, Inv st →
        (st.holdings.filter (fun h => h.asset == Asset.usd)).length = 1
          ∧ ∀ h ∈ st.holdings, h.asset = Asset.usd →
              h.holding_id = USD_HOLDING_ID)
    ∧ (∀ (st st' : Ledger) (o : BuyOrder) (p : ℚ), Inv st →
        apply_buy o p st = .ok st' →
          Inv st' ∧ st'.next_id = st.next_id + 1
            ∧ st'.holdings.getLast? = some
                { holding_id := mintId st.next_id, asset := .btc,
                  amount := o.amount, stop_loss := o.stop_loss,
                  take_profit := o.take_profit })
    ∧ (∀ (st st' : Ledger) (o : SellOrder) (p : ℚ), Inv st → 0 ≤ p →
        apply_sell o p st = .ok st' → Inv st')
    ∧ (∀ (st st' : Ledger) (evs : List SellEvent) (low high : ℚ), Inv st →
        0 ≤ low →
        (∀ g ∈ st.holdings, ∀ t, g.take_profit = some t → 0 ≤ t) →
        auto_close low high st = .ok (st', evs) → Inv st') := by
  refine ⟨Inv_reset, ?_, ?_, ?_, ?_⟩
  · intro st hInv
    refine ⟨?_, hInv.usd_id⟩
    have hle : st.holdings.countP (fun h => h.asset == Asset.usd) ≤ 1 :=
      countP_usd_le_one st.holdings hInv.ids_nodup hInv.usd_id
    rw [List.countP_eq_length_filter] at hle
    obtain ⟨u, hu, husd⟩ := hInv.usd_exists
    have hpos : 0 < (st.holdings.filter (fun h => h.asset == Asset.usd)).length :=
      List.length_pos.mpr (List.ne_nil_of_mem
        (List.mem_filter.mpr ⟨hu, beq_iff_eq.mpr husd⟩))
    omega
  · intro st st' o p hInv hok
    obtain ⟨hamt, u, husd, hcost⟩ := apply_buy_ok_inversion st st' o p hok
    have hchar := apply_buy_char st o p u hInv.toWInv hamt husd hcost
    rw [hok] at hchar
    injection hchar with h'
    subst h'
    set n := st.next_id with hn
    set newh : HoldingState := { holding_id := mintId n, asset := .btc,
                                 amount := o.amount, stop_loss := o.stop_loss,
                                 take_profit := o.take_profit } with hnewh
    set g : HoldingState → HoldingState := fun x =>
      if x.asset == Asset.usd
      then { x with amount := x.amount - o.amount * p } else x with hg
    set st1 : Ledger := { holdings := st.holdings.map g ++ [newh],
                          next_id := n + 1 } with hst1
    have hgid : ∀ x, (g x).holding_id = x.holding_id := by
      intro x
      by_cases hx : x.asset = Asset.usd <;> simp [hg, hx]
    have hgasset : ∀ x, (g x).asset = x.asset := by
      intro x
      by_cases hx : x.asset = Asset.usd <;> simp [hg, hx]
    have hfresh := fresh_mintId st hInv.toWInv
    have hids1 : st1.holdings.map (fun h => h.holding_id)
        = st.holdings.map (fun h => h.holding_id) ++ [mintId n] := by
      rw [hst1]
      simp only [List.map_append, map_holding_id_map g hgid]
      rfl
    have hnd1 : (st1.holdings.map (fun h => h.holding_id)).Nodup := by
      rw [hids1]
      rw [List.nodup_append]
      refine ⟨hInv.ids_nodup, List.nodup_singleton _, ?_⟩
      intro a ha1 hb1
      rcases List.mem_map.mp ha1 with ⟨x, hx, rfl⟩
      simp only [List.mem_singleton] at hb1
      exact hfresh x hx hb1
    have hw1 : WInv st1 := by
      refine ⟨?_, ?_, hnd1, ?_⟩
      · obtain ⟨v, hv, hvusd⟩ := hInv.usd_exists
        exact ⟨g v, List.mem_append_left _ (List.mem_map_of_mem g hv),
          by rw [hgasset]; exact hvusd⟩
      · intro h hm hasset
        rcases List.mem_append.mp hm with hm1 | hm2
        · exact usd_id_map g hgasset hgid st.holdings hInv.usd_id h hm1 hasset
        · simp only [List.mem_singleton] at hm2
          rw [hm2] at hasset
          exact absurd hasset (by simp [hnewh])
      · intro h hm hasset
        rcases List.mem_append.mp hm with hm1 | hm2
        · rcases List.mem_map.mp hm1 with ⟨x, hx, rfl⟩
          obtain ⟨k, hk1, hk2, hk3⟩ := hInv.btc_ids x hx
            (by rw [← hgasset]; exact hasset)
          exact ⟨k, hk1, by simp only [hst1]; omega, by rw [hgid]; exact hk3⟩
        · simp only [List.mem_singleton] at hm2
          refine ⟨n, hInv.next_pos, by simp only [hst1]; omega, ?_⟩
          rw [hm2]
    refine ⟨⟨hw1, ?_, ?_⟩, by simp only [hst1], ?_⟩
    · intro h hm
      rcases List.mem_append.mp hm with hm1 | hm2
      · rcases List.mem_map.mp hm1 with ⟨x, hx, rfl⟩
        by_cases hxusd : x.asset = Asset.usd
        · have hx1 : g x = { x with amount := x.amount - o.amount * p } := by
            simp only [hg]
            exact if_pos (beq_iff_eq.mpr hxusd)
          rw [hx1]
          have hxu : x = u := usd_unique st.holdings hInv.ids_nodup hInv.usd_id
            x u hx (get_usd_holding_mem husd).1 hxusd (get_usd_holding_mem husd).2
          dsimp only
          rw [hxu]
          linarith
        · have hx1 : g x = x := by
            simp only [hg]
            exact if_neg (by simpa using hxusd)
          rw [hx1]
          exact hInv.amounts x hx
      · simp only [List.mem_singleton] at hm2
        rw [hm2]
        simp only [hnewh]
        linarith [eps_pos]
    · simp only [hst1]
      omega
    · simp only [hst1]
      exact List.getLast?_concat _
  · intro st st' o p hInv hp hok
    obtain ⟨hamt, hne, target, hfind, hasset, hle⟩ :=
      apply_sell_ok_inversion st st' o p hok
    have hchar := apply_sell_char st o p target hInv.toWInv hamt hne hfind hasset hle
    rw [hok] at hchar
    injection hchar with h'
    subst h'
    by_cases hcond : target.amount - o.amount ≤ eps
    · rw [if_pos hcond]
      show Inv (sellFullResult o.holding_id o.amount p st)
      exact ⟨sellFullResult_WInv o.holding_id o.amount p st hInv.toWInv hne,
        sellFullResult_amounts o.holding_id o.amount p st hInv.amounts
          (mul_nonneg (le_of_lt hamt) hp),
        hInv.next_pos⟩
    · rw [if_neg hcond]
      refine ⟨⟨?_, ?_, ?_, ?_⟩, ?_, hInv.next_pos⟩
      · obtain ⟨u, hu, husd⟩ := hInv.usd_exists
        refine ⟨_, List.mem_map_of_mem _ hu, ?_⟩
        rw [sellFullResult_fun_asset o.holding_id o.amount p u]
        exact husd
      · intro h hm hasset'
        rcases List.mem_map.mp hm with ⟨x, hx, rfl⟩
        rw [sellFullResult_fun_id o.holding_id o.amount p x]
        rw [sellFullResult_fun_asset o.holding_id o.amount p x] at hasset'
        exact hInv.usd_id x hx hasset'
      · rw [map_holding_id_map _ (sellFullResult_fun_id o.holding_id o.amount p)]
        exact hInv.ids_nodup
      · intro h hm hasset'
        rcases List.mem_map.mp hm with ⟨x, hx, rfl⟩
        rw [sellFullResult_fun_asset o.holding_id o.amount p x] at hasset'
        obtain ⟨k, hk1, hk2, hk3⟩ := hInv.btc_ids x hx hasset'
        exact ⟨k, hk1, hk2,
          by rw [sellFullResult_fun_id o.holding_id o.amount p x]; exact hk3⟩
      · intro h hm
        rcases List.mem_map.mp hm with ⟨x, hx, rfl⟩
        by_cases hxid : x.holding_id = o.holding_id
        · have hxt : x = target := id_unique st.holdings hInv.ids_nodup x target
            hx (find_holding_mem hfind).1
            (by rw [hxid, (find_holding_mem hfind).2])
          rw [if_pos (beq_iff_eq.mpr hxid)]
          dsimp only
          rw [hxt]
          have := eps_pos
          linarith [not_le.mp hcond]
        · rw [if_neg (by simpa using hxid)]
          by_cases hxusd : x.asset = Asset.usd
          · rw [if_pos (beq_iff_eq.mpr hxusd)]
            dsimp only
            linarith [hInv.amounts x hx, mul_nonneg (le_of_lt hamt) hp]
          · rw [if_neg (by simpa using hxusd)]
            exact hInv.amounts x hx
  · intro st st' evs low high hInv hlow htp0 hok
    obtain ⟨st1, evs1, heq, hw1, hnext1, hsl1, ham1⟩ :=
      auto_close_spec low high st hInv.toWInv
    rw [hok] at heq
    injection heq with h'
    injection h' with h1 h2
    subst h1
    exact ⟨hw1, ham1 hInv.amounts hlow htp0, by rw [hnext1]; exact hInv.next_pos⟩

/-- Concrete instance for C6: buying 50 BTC at an open of 200 from the
reset ledger yields an invariant state with the counter advanced and the
minted `H1` holding (carrying the order's SL/TP) appended last. -/
theorem c6_ledger_invariant_witness :
    Inv sampleNegTpState
      ∧ sampleNegTpState.next_id = reset_portfolio.next_id + 1
      ∧ sampleNegTpState.holdings.getLast? = some
          { holding_id := mintId reset_portfolio.next_id, asset := .btc,
            amount := 50, stop_loss := none, take_profit := some (-100) } :=
  c6_ledger_invariant.2.2.1 reset_portfolio sampleNegTpState
    { amount := 50, take_profit := some (-100) } 200 Inv_reset buy_reaches_negTp

theorem runDay_trace (prices : List Bar) (runner : Runner) (day : ℤ)
    (st : Ledger) (rec : CallRec)
    (hmem : rec ∈ (runDay prices runner day st).1) :
    rec.day = day ∧ rec.df = strategy_df prices day
      ∧ ∃ c, last_known_close (strategy_df prices day) = some c
          ∧ rec.payload = snapshot_holdings_with_price c st := by
  unfold runDay at hmem
  dsimp only at hmem
  by_cases hempty : (strategy_df prices day).isEmpty
  · rw [if_pos hempty] at hmem
    cases hmem
  · rw [if_neg hempty] at hmem
    cases hc : last_known_close (strategy_df prices day) with
    | none =>
      rw [hc] at hmem
      cases hmem
    | some c =>
      rw [hc] at hmem
      dsimp only at hmem
      cases hrow : prices.find? (fun b => b.date == day) with
      | none =>
        rw [hrow] at hmem
        cases hmem
      | some row =>
        rw [hrow] at hmem
        dsimp only at hmem
        cases hr : runner (strategy_df prices day)
            (snapshot_holdings_with_price c st) with
        | error tb =>
          rw [hr] at hmem
          rw [List.mem_singleton] at hmem
          subst hmem
          exact ⟨rfl, rfl, c, rfl, rfl⟩
        | ok raw =>
          rw [hr] at hmem
          rw [List.mem_singleton] at hmem
          subst hmem
          exact ⟨rfl, rfl, c, rfl, rfl⟩

theorem runDays_trace (prices : List Bar) (runner : Runner) :
    ∀ (ds : List ℤ) (st : Ledger) (rec : CallRec),
      rec ∈ (runDays prices runner ds st).1 →
      ∃ st0 : Ledger, rec.df = strategy_df prices rec.day
        ∧ ∃ c, last_known_close (strategy_df prices rec.day) = some c
            ∧ rec.payload = snapshot_holdings_with_price c st0 := by
  intro ds
  induction ds with
  | nil =>
    intro st rec h
    cases h
  | cons d rest ih =>
    intro st rec hmem
    unfold runDays at hmem
    cases hday : runDay prices runner d st with
    | mk tr r =>
      rw [hday] at hmem
      cases r with
      | error e =>
        dsimp only at hmem
        obtain ⟨h1, h2, c, h3, h4⟩ := runDay_trace prices runner d st rec
          (by rw [hday]; exact hmem)
        refine ⟨st, ?_, c, ?_, h4⟩
        · rw [h1]; exact h2
        · rw [h1]; exact h3
      | ok st1 =>
        dsimp only at hmem
        cases hrest : runDays prices runner rest st1 with
        | mk tr1 r1 =>
          rw [hrest] at hmem
          dsimp only at hmem
          rcases List.mem_append.mp hmem with hl | hr
          · obtain ⟨h1, h2, c, h3, h4⟩ := runDay_trace prices runner d st rec
              (by rw [hday]; exact hl)
            refine ⟨st, ?_, c, ?_, h4⟩
            · rw [h1]; exact h2
            · rw [h1]; exact h3
          · exact ih st1 rec (by rw [hrest]; exact hr)

theorem test_strategy_trace (prices : List Bar) (s e : Ts) (runner : Runner)
    (rec : CallRec) (hmem : rec ∈ (test_strategy prices s e runner).1) :
    ∃ st0 : Ledger, rec.df = strategy_df prices rec.day
      ∧ ∃ c, last_known_close (strategy_df prices rec.day) = some c
          ∧ rec.payload = snapshot_holdings_with_price c st0 := by
  unfold test_strategy at hmem
  cases hd : get_trading_dates prices s e with
  | error msg =>
    rw [hd] at hmem
    cases hmem
  | ok dates =>
    rw [hd] at hmem
    dsimp only at hmem
    cases hh : dates.head? with
    | none =>
      rw [hh] at hmem
      cases hmem
    | some d0 =>
      rw [hh] at hmem
      dsimp only at hmem
      by_cases hwm : (get_df_until_date prices { day := d0 - 1 }).isEmpty
      · rw [if_pos hwm] at hmem
        cases hmem
      · rw [if_neg hwm] at hmem
        cases hrun : runDays prices runner dates reset_portfolio with
        | mk tr r =>
          rw [hrun] at hmem
          cases r with
          | error e' =>
            cases e' with
            | mk m stE =>
              dsimp only at hmem
              exact runDays_trace prices runner dates reset_portfolio rec
                (by rw [hrun]; exact hmem)
          | ok stF =>
            dsimp only at hmem
            cases hgl : dates.getLast? with
            | none =>
              rw [hgl] at hmem
              exact runDays_trace prices runner dates reset_portfolio rec
                (by rw [hrun]; exact hmem)
            | some last_day =>
              rw [hgl] at hmem
              dsimp only at hmem
              cases hfl : prices.find? (fun b => b.date == last_day) with
              | none =>
                rw [hfl] at hmem
                exact runDays_trace prices runner dates reset_portfolio rec
                  (by rw [hrun]; exact hmem)
              | some last_row =>
                rw [hfl] at hmem
                dsimp only at hmem
                exact runDays_trace prices runner dates reset_portfolio rec
                  (by rw [hrun]; exact hmem)

/-- C4: on a sorted price table, every strategy invocation of a
`test_strategy` run on some day D receives exactly the bars dated
≤ D − 1 — hence no row dated ≥ D — in ascending order, and a holdings
payload valuing USD at 1 and everything else at the close of the last bar
strictly before D (never at any component of D's own bar). -/
theorem c4_no_lookahead (prices : List Bar) (s e : Ts) (runner : Runner)
    (hs : prices.Pairwise (fun a b => a.date ≤ b.date)) :
    ∀ rec ∈ (test_strategy prices s e runner).1,
      rec.df = prices.filter (fun b => decide (b.date ≤ rec.day - 1))
      ∧ (∀ b ∈ rec.df, b.date < rec.day)
      ∧ rec.df.Pairwise (fun a b => a.date ≤ b.date)
      ∧ ∃ lastBar, rec.df.getLast? = some lastBar
          ∧ lastBar.date < rec.day
          ∧ (∀ p ∈ rec.payload,
              p.unit_value_usd
                  = (if p.asset = Asset.usd then 1 else lastBar.close)
                ∧ p.total_value_usd = p.amount * p.unit_value_usd) := by
  intro rec hmem
  obtain ⟨st0, hdf, c, hc, hpayload⟩ :=
    test_strategy_trace prices s e runner rec hmem
  have hfilter : rec.df
      = prices.filter (fun b => decide (b.date ≤ rec.day - 1)) := by
    rw [hdf, strategy_df, get_df_until_date_eq_filter prices hs]
  refine ⟨hfilter, ?_, ?_, ?_⟩
  · intro b hb
    rw [hfilter] at hb
    rcases List.mem_filter.mp hb with ⟨-, hble⟩
    have hble' : b.date ≤ rec.day - 1 := of_decide_eq_true hble
    omega
  · rw [hfilter]
    exact hs.filter _
  · cases hgl : (strategy_df prices rec.day).getLast? with
    | none =>
      unfold last_known_close at hc
      rw [hgl] at hc
      cases hc
    | some lastBar =>
      have hcl : c = lastBar.close := by
        unfold last_known_close at hc
        rw [hgl] at hc
        exact (Option.some.inj hc).symm
      refine ⟨lastBar, by rw [hdf]; exact hgl, ?_, ?_⟩
      · have hmem' : lastBar ∈ strategy_df prices rec.day :=
          List.mem_of_getLast?_eq_some hgl
        rw [strategy_df, get_df_until_date_eq_filter prices hs] at hmem'
        rcases List.mem_filter.mp hmem' with ⟨-, hble⟩
        have hble' : lastBar.date ≤ rec.day - 1 := of_decide_eq_true hble
        omega
      · intro p hp
        rw [hpayload] at hp
        rcases List.mem_map.mp hp with ⟨h, hh, rfl⟩
        subst hcl
        refine ⟨?_, ?_⟩ <;> by_cases hu : h.asset = Asset.usd <;> simp [hu]

theorem sampleRec4_mem :
    sampleRec4 ∈ (test_strategy sampleBars { day := 2 } { day := 2 }
      failRunner).1 := by
  rw [show (test_strategy sampleBars { day := 2 } { day := 2 } failRunner).1
      = [sampleRec4] from rfl]
  exact List.mem_singleton.mpr rfl

/-- Concrete instance for C4: the single invocation of the sample run on
day 2 sees only the date-1 bar and a payload valued at its close. -/
theorem c4_no_lookahead_witness :
    sampleBars.Pairwise (fun a b => a.date ≤ b.date)
    ∧ (sampleRec4.df
          = sampleBars.filter (fun b => decide (b.date ≤ sampleRec4.day - 1))
        ∧ (∀ b ∈ sampleRec4.df, b.date < sampleRec4.day)
        ∧ sampleRec4.df.Pairwise (fun a b => a.date ≤ b.date)
        ∧ ∃ lastBar, sampleRec4.df.getLast? = some lastBar
            ∧ lastBar.date < sampleRec4.day
            ∧ (∀ p ∈ sampleRec4.payload,
                p.unit_value_usd
                    = (if p.asset = Asset.usd then 1 else lastBar.close)
                  ∧ p.total_value_usd = p.amount * p.unit_value_usd)) :=
  ⟨by decide,
   c4_no_lookahead sampleBars { day := 2 } { day := 2 } failRunner (by decide)
     sampleRec4 sampleRec4_mem⟩

end CrewaiTrading
